import Mathlib

/-!
Verification of the amount-detection pipeline
(extract → normalize → classify) of the medical-document service.

The JavaScript services are shallowly embedded:
* JS strings become `List Char` (wrapped in `String` at the API boundary);
* JS numbers become `ℚ` (every constant appearing in the code is an exact
  decimal, and the claims under study compare values, not binary rounding);
* the service functions `fixOcrDigits`, `parseNumeric`, `normalizeTokens`,
  `extractNumericTokensFromText`, `detectCurrency`, `matchSnippetToType`,
  `classifyAmounts`, `validateClassification` and the `/api/final` route
  are translated statement by statement;
* the handful of regular expressions the services use are implemented as
  bespoke deterministic matchers with the exact alternation/greediness
  semantics of the JS engine for those patterns;
* each service is a fresh instance per request: the (buggy) persistence of
  `lastIndex` on the `/g`-flagged exclude patterns across calls is not
  modelled — every `test` starts from position 0, which is the behaviour
  of a freshly constructed service.
-/

namespace AmountDetection

set_option maxRecDepth 100000

/-! ## JS string primitives -/

/-- JS `\s` whitespace class (the code points that can actually occur in the
inputs of this service). -/
def jsWhitespace (c : Char) : Bool :=
  c = ' ' || c = '\t' || c = '\n' || c = '\r' ||
  c = '\x0b' || c = '\x0c' || c = ' '

/-- JS `\d`. -/
def jsDigit (c : Char) : Bool := '0' ≤ c && c ≤ '9'

/-- JS `\w` (word character, used by the `\b` boundary). -/
def jsWordChar (c : Char) : Bool :=
  ('a' ≤ c && c ≤ 'z') || ('A' ≤ c && c ≤ 'Z') || jsDigit c || c = '_'

/-- ASCII lower-casing, as `String.prototype.toLowerCase` acts on the
characters relevant here (non-ASCII symbols such as `₹` are fixed points in
both semantics). -/
def jsToLower (c : Char) : Char :=
  if 'A' ≤ c && c ≤ 'Z' then Char.ofNat (c.toNat + 32) else c

/-- Case-insensitive character comparison against a lowercase pattern char. -/
def ciEq (c p : Char) : Bool := jsToLower c = p

/-- Case-insensitive "this lowercase pattern is a prefix of `s`". -/
def ciPrefix : List Char → List Char → Bool
  | [], _ => true
  | _ :: _, [] => false
  | p :: ps, c :: cs => ciEq c p && ciPrefix ps cs

/-- `String.prototype.trim` on a character list. -/
def jsTrim (l : List Char) : List Char :=
  (l.dropWhile jsWhitespace).reverse.dropWhile jsWhitespace |>.reverse

/-- Split a character list at every character satisfying `p`
(the pieces between delimiters; empty pieces included, as JS
`split` produces them — they are filtered out by every caller). -/
def splitOnPred (p : Char → Bool) (l : List Char) : List (List Char) :=
  match l with
  | [] => [[]]
  | c :: cs =>
    let rest := splitOnPred p cs
    if p c then [] :: rest
    else match rest with
      | [] => [[c]]
      | r :: rs => (c :: r) :: rs

/-- `text.split(/[|\n\r]+/).map(s => s.trim()).filter(s => s.length > 0)`:
splitting on runs versus single delimiters is indistinguishable after the
empty segments are filtered away. -/
def splitSegments (l : List Char) : List (List Char) :=
  ((splitOnPred (fun c => c = '|' || c = '\n' || c = '\r') l).map jsTrim).filter
    (fun s => !s.isEmpty)

/-- Does `pat` occur as a (case-sensitive) substring?  (JS `includes`.) -/
def containsSub (l pat : List Char) : Bool :=
  match l with
  | [] => pat.isEmpty
  | _ :: cs => pat.isPrefixOf l || containsSub cs pat

/-! ## JS numeric primitives -/

/-- Value of a digit run. -/
def digitsVal (l : List Char) : ℕ :=
  l.foldl (fun a c => 10 * a + (c.toNat - '0'.toNat)) 0

/-- `parseFloat` restricted to the character repertoire that can reach it in
this service (digits, one or more `.`, stray letters): parse the longest
numeric prefix `[+-]? (digits [. digits*] | . digits+)`, `none` for `NaN`.
No exponent handling: the letter `e` cannot appear in any string this
service feeds to `parseFloat`. -/
def jsParseFloat (l : List Char) : Option ℚ :=
  let (sign, l) := match l with
    | '-' :: rest => ((-1 : ℚ), rest)
    | '+' :: rest => ((1 : ℚ), rest)
    | _ => ((1 : ℚ), l)
  let intPart := l.takeWhile jsDigit
  let rest := l.drop intPart.length
  let (fracPart, hasDot) := match rest with
    | '.' :: r => (r.takeWhile jsDigit, true)
    | _ => ([], false)
  if intPart.isEmpty && (!hasDot || fracPart.isEmpty) then none
  else
    some (sign * ((digitsVal intPart : ℚ) +
      (digitsVal fracPart : ℚ) / ((10 : ℚ) ^ fracPart.length)))

/-- `Math.round(value * 100) / 100` (JS `Math.round` is `⌊x + 1/2⌋`). -/
def round2 (q : ℚ) : ℚ := (Rat.floor (q * 100 + 1/2) : ℚ) / 100

/-! ## Normalizer service -/

/-- `this.digitCorrections` of `NormalizerService`. -/
def digitCorrections (c : Char) : Option Char :=
  match c with
  | 'l' => some '1' | 'L' => some '1' | 'I' => some '1' | 'i' => some '1'
  | 'O' => some '0' | 'o' => some '0' | 'D' => some '0'
  | 'S' => some '5' | 's' => some '5'
  | 'Z' => some '2' | 'z' => some '2'
  | 'B' => some '8' | 'b' => some '8'
  | 'G' => some '6' | 'g' => some '6'
  | 'T' => some '7' | 't' => some '7'
  | _ => none

/-- `fixed.replace(/[Rs\.\$€£₹]/gi, '')` — a character *class*, so it deletes
every `R`, `r`, `S`, `s`, `.`, `$`, `€`, `£`, `₹` — followed by
`fixed.replace(/\s+/g, '')`. -/
def stripSymbolsWs (l : List Char) : List Char :=
  (l.filter (fun c =>
      !(c = 'R' || c = 'r' || c = 'S' || c = 's' || c = '.' ||
        c = '$' || c = '€' || c = '£' || c = '₹'))).filter
    (fun c => !jsWhitespace c)

/-- One step of the correction loop of `fixOcrDigits`: the character kept (or
dropped) given the previous and next characters of the *stripped* string. -/
def correctionStep (prev : Option Char) (c : Char) (next : Option Char) :
    List Char :=
  match digitCorrections c, (prev.elim false jsDigit) || (next.elim false jsDigit) with
  | some d, true => [d]
  | _, _ =>
    if jsDigit c || c = '.' || c = ',' then [c] else []

/-- The character-by-character correction loop of `fixOcrDigits`; `prev` is
the previous character of the original (stripped) string, exactly as the JS
loop indexes `fixed[i-1]` / `fixed[i+1]`. -/
def correctionGo (prev : Option Char) : List Char → List Char
  | [] => []
  | c :: rest => correctionStep prev c rest.head? ++ correctionGo (some c) rest

/-- The whole correction pass. -/
def correctionPass (l : List Char) : List Char := correctionGo none l

/-- `fixed.split('.')` / re-join of the multiple-decimal-point collapse. -/
def collapseDots (l : List Char) : List Char :=
  let parts := splitOnPred (fun c => c = '.') l
  if parts.length > 2 then
    (parts.headD []) ++ '.' :: (parts.tail.flatten)
  else l

/-- `NormalizerService.fixOcrDigits`. -/
def fixOcrDigits (token : String) : String :=
  let fixed := jsTrim token.data
  let fixed := stripSymbolsWs fixed
  let fixed := correctionPass fixed
  -- remove commas (thousand separators)
  let fixed := fixed.filter (fun c => !(c = ','))
  -- keep only `[0-9.]`
  let fixed := fixed.filter (fun c => jsDigit c || c = '.')
  String.mk (collapseDots fixed)

/-- Result record of `parseNumeric` (the constant `type: 'number'` field is
omitted: it is the only value the code ever produces). -/
structure ParsedNumber where
  value : ℚ
  original : String
  normalized : String
  deriving Repr, DecidableEq

/-- `NormalizerService.parseNumeric`. -/
def parseNumeric (token : String) : Option ParsedNumber :=
  let fixed := fixOcrDigits token
  if fixed.isEmpty || fixed = "." then none
  else if containsSub token.data ['%'] then none
  else
    match jsParseFloat fixed.data with
    | none => none
    | some value =>
      if value < 0 then none
      else if value < 1/100 then none
      else some ⟨round2 value, token, fixed⟩

/-- One entry of the `details` list of `normalizeTokens`. -/
structure NormDetail where
  original : String
  normalized : String
  value : Option ℚ
  success : Bool
  reason : Option String
  deriving Repr, DecidableEq

structure NormalizeResult where
  normalized_amounts : List ℚ
  normalization_confidence : ℚ
  details : List NormDetail
  deriving Repr, DecidableEq

/-- Loop state of `normalizeTokens` (`seenValues` mirrors the JS `Set`). -/
structure NormState where
  amounts : List ℚ
  details : List NormDetail
  seenValues : List ℚ
  successfulParsed : ℕ
  deriving Repr

/-- The token loop of `normalizeTokens`. -/
def normLoop : List String → NormState → NormState
  | [], st => st
  | token :: rest, st =>
    match parseNumeric token with
    | some parsed =>
      if st.seenValues.contains parsed.value then
        normLoop rest { st with
          details := st.details ++
            [⟨parsed.original, parsed.normalized, some parsed.value, false,
              some "duplicate"⟩] }
      else
        normLoop rest
          { amounts := st.amounts ++ [parsed.value]
            details := st.details ++
              [⟨parsed.original, parsed.normalized, some parsed.value, true,
                none⟩]
            seenValues := st.seenValues ++ [parsed.value]
            successfulParsed := st.successfulParsed + 1 }
    | none =>
      -- `parsed` is `null` here, so the `'percentage'` arm of the JS ternary
      -- `parsed ? 'percentage' : 'invalid_format'` is unreachable.
      normLoop rest { st with
        details := st.details ++
          [⟨token, fixOcrDigits token, none, false, some "invalid_format"⟩] }

/-- `config.minNormalizationConfidence` (default configuration). -/
def minNormalizationConfidence : ℚ := 3/10

/-- `NormalizerService.calculateNormalizationConfidence`. -/
def calculateNormalizationConfidence (successRate : ℚ) (amountCount : ℕ) : ℚ :=
  if amountCount = 0 then 0
  else
    let confidence := 1/2 + successRate * (4/10)
    let confidence :=
      if 2 ≤ amountCount && amountCount ≤ 10 then confidence + 1/10
      else confidence
    let confidence :=
      if amountCount = 1 then confidence * (9/10) else confidence
    max minNormalizationConfidence (min (99/100) confidence)

/-- `NormalizerService.normalizeTokens` (the `parseFloat(confidence.toFixed(2))`
final formatting is modelled as rounding to two decimals). -/
def normalizeTokens (rawTokens : List String) : NormalizeResult :=
  if rawTokens.isEmpty then ⟨[], 0, []⟩
  else
    let st := normLoop rawTokens ⟨[], [], [], 0⟩
    let successRate : ℚ := (st.successfulParsed : ℚ) / (rawTokens.length : ℚ)
    let confidence :=
      calculateNormalizationConfidence successRate st.amounts.length
    ⟨st.amounts, round2 confidence, st.details⟩

/-! ## OCR service: token extraction

The extraction regex
`/(?:Rs\.?|INR|USD|EUR|GBP|\$|€|£|₹|:)\s*([l1IO0-9,]+(?:\.[l1IO0-9]{1,2})?)/gi`
is implemented as a deterministic scanner.  The prefix alternatives all start
with distinct characters, so trying the flattened candidate list
`rs.`, `rs`, `inr`, `usd`, `eur`, `gbp`, `$`, `€`, `£`, `₹`, `:` in order
(with the whole remainder of the pattern after each) reproduces the JS
engine's alternation-plus-backtracking behaviour exactly. -/

/-- The main capture class `[l1IO0-9,]` under the `i` flag. -/
def mainClass (c : Char) : Bool :=
  let lc := jsToLower c
  lc = 'l' || lc = 'i' || lc = 'o' || jsDigit c || c = ','

/-- The decimal-part class `[l1IO0-9]` under the `i` flag. -/
def decClass (c : Char) : Bool :=
  let lc := jsToLower c
  lc = 'l' || lc = 'i' || lc = 'o' || jsDigit c

/-- `\s*([l1IO0-9,]+(?:\.[l1IO0-9]{1,2})?)` at the head of `rest`:
the capture and the number of characters consumed. -/
def tryCapture (rest : List Char) : Option (List Char × ℕ) :=
  let ws := rest.takeWhile jsWhitespace
  let afterWs := rest.drop ws.length
  let main := afterWs.takeWhile mainClass
  if main.isEmpty then none
  else
    let afterMain := afterWs.drop main.length
    let (dec, decLen) : List Char × ℕ :=
      match afterMain with
      | '.' :: r =>
        let d := (r.takeWhile decClass).take 2
        if d.isEmpty then ([], 0) else ('.' :: d, d.length + 1)
      | _ => ([], 0)
    some (main ++ dec, ws.length + main.length + decLen)

/-- Try each candidate prefix in order; on a prefix hit attempt the rest of
the pattern, falling through to later candidates on failure (the JS
backtracking over `Rs\.?`). -/
def tryCands : List (List Char) → List Char → Option (List Char × ℕ)
  | [], _ => none
  | cand :: cs, s =>
    if ciPrefix cand s then
      match tryCapture (s.drop cand.length) with
      | some (cap, len) => some (cap, cand.length + len)
      | none => tryCands cs s
    else tryCands cs s

/-- `matchAll` semantics: leftmost matches, resuming after each match.
`fuel` only bounds the recursion (every step consumes at least one
character). -/
def scanCapsGo (tryAt : List Char → Option (List Char × ℕ)) :
    ℕ → List Char → List (List Char)
  | 0, _ => []
  | _, [] => []
  | fuel + 1, s =>
    match tryAt s with
    | some (cap, len) => cap :: scanCapsGo tryAt fuel (s.drop (max len 1))
    | none => scanCapsGo tryAt fuel s.tail

def scanCaps (tryAt : List Char → Option (List Char × ℕ)) (s : List Char) :
    List (List Char) :=
  scanCapsGo tryAt s.length s

/-- Prefix candidates of the extraction pattern (with the `:` alternative). -/
def tokenCands : List (List Char) :=
  [['r','s','.'], ['r','s'], ['i','n','r'], ['u','s','d'], ['e','u','r'],
   ['g','b','p'], ['$'], ['€'], ['£'], ['₹'], [':']]

/-- `this.monetaryKeywords` of `OCRService`. -/
def monetaryKeywords : List String :=
  ["subtotal", "total", "amount", "paid", "cash", "change",
   "due", "balance", "discount", "tax", "gst", "vat", "cgst", "sgst",
   "price", "cost", "bill", "payment", "charge", "fee", "charges", "pald"]

/-! ### The exclude patterns (`this.excludePatterns`), one matcher each.
`existsPos f s` scans every position of `s`, handing the matcher the
previous character (for `\b`) and the remaining suffix. -/

def existsPos (f : Option Char → List Char → Bool) : List Char → Bool :=
  go none
where
  go (prev : Option Char) : List Char → Bool
    | [] => f prev []
    | c :: rest => f prev (c :: rest) || go (some c) rest

/-- `\b` before a word character: the previous character is absent or
a non-word character. -/
def bdryBefore (prev : Option Char) : Bool := prev.elim true (fun c => !jsWordChar c)

/-- `\b` after a word character: the next character is absent or non-word. -/
def bdryAfter (next : Option Char) : Bool := next.elim true (fun c => !jsWordChar c)

/-- `\s*` skip. -/
def skipWs (s : List Char) : List Char := s.dropWhile jsWhitespace

/-- `/\b(?:invoice|bill)\s*#?\s*:?\s*\d{5,}\b/i` at one position. -/
def invoiceAt (prev : Option Char) (s : List Char) : Bool :=
  bdryBefore prev &&
  ([['i','n','v','o','i','c','e'], ['b','i','l','l']].any fun w =>
    ciPrefix w s &&
      (let r := skipWs (s.drop w.length)
       let r := match r with | '#' :: t => skipWs t | _ => r
       let r := match r with | ':' :: t => skipWs t | _ => r
       let ds := r.takeWhile jsDigit
       5 ≤ ds.length && bdryAfter (r.drop ds.length).head?))

/-- `/\b\d{1,2}[\/\-\.]\d{1,2}[\/\-\.]\d{2,4}\b/` at one position.  The digit
runs are delimited by non-digit separators, so the `{m,n}` quantifiers admit
no backtracking beyond "the whole run must fit". -/
def dateAt (prev : Option Char) (s : List Char) : Bool :=
  bdryBefore prev &&
  (let d1 := s.takeWhile jsDigit
   let sep := fun c => c = '/' || c = '-' || c = '.'
   1 ≤ d1.length && d1.length ≤ 2 &&
   match s.drop d1.length with
   | c1 :: r1 =>
     sep c1 &&
     (let d2 := r1.takeWhile jsDigit
      1 ≤ d2.length && d2.length ≤ 2 &&
      match r1.drop d2.length with
      | c2 :: r2 =>
        sep c2 &&
        (let d3 := r2.takeWhile jsDigit
         2 ≤ d3.length && d3.length ≤ 4 && bdryAfter (r2.drop d3.length).head?)
      | [] => false)
   | [] => false)

/-- `/\b\d{1,2}:\d{2}(?::\d{2})?\s*(?:am|pm)?/i` at one position: everything
after `\b\d{1,2}:\d{2}` is optional with nothing anchored behind it, so the
test reduces to that mandatory prefix. -/
def timeAt (prev : Option Char) (s : List Char) : Bool :=
  bdryBefore prev &&
  (let d1 := s.takeWhile jsDigit
   1 ≤ d1.length && d1.length ≤ 2 &&
   match s.drop d1.length with
   | ':' :: r => 2 ≤ (r.takeWhile jsDigit).length
   | _ => false)

/-- `/patient\s*(?:name|id)\s*:?\s*\d+/i`-style matcher: `head`, then one of
`alts` (tried in order, with the tail of the pattern re-attempted after
each), `\s*:?\s*`, one or more digits.  No boundary assertions. -/
def labelNumberAt (head : List Char) (alts : List (List Char))
    (minDigits : ℕ) (s : List Char) : Bool :=
  ciPrefix head s &&
  (let r0 := skipWs (s.drop head.length)
   alts.any fun a =>
     ciPrefix a r0 &&
       (let r := skipWs (r0.drop a.length)
        let r := match r with | ':' :: t => skipWs t | _ => r
        minDigits ≤ (r.takeWhile jsDigit).length))

/-- `/\b(?:phone|tel|mobile|contact)\s*:?\s*\d{10,}/i` at one position. -/
def phoneAt (prev : Option Char) (s : List Char) : Bool :=
  bdryBefore prev &&
  ([['p','h','o','n','e'], ['t','e','l'], ['m','o','b','i','l','e'],
    ['c','o','n','t','a','c','t']].any fun w =>
    ciPrefix w s &&
      (let r := skipWs (s.drop w.length)
       let r := match r with | ':' :: t => skipWs t | _ => r
       10 ≤ (r.takeWhile jsDigit).length))

/-- `OCRService.matchesExcludePattern` (each `test` modelled from position 0,
i.e. fresh-service semantics; the stray `lastIndex` persistence of the
`/g`-flagged patterns is a statefulness wart not modelled here). -/
def matchesExcludePattern (line : List Char) : Bool :=
  existsPos invoiceAt line ||
  existsPos dateAt line ||
  existsPos timeAt line ||
  existsPos (fun _ s => labelNumberAt ['p','a','t','i','e','n','t']
    [['n','a','m','e'], ['i','d']] 1 s) line ||
  existsPos (fun _ s => labelNumberAt ['d','o','c','t','o','r']
    [['n','a','m','e'], ['i','d']] 1 s) line ||
  existsPos (fun _ s => labelNumberAt ['r','o','o','m']
    [['n','o'], ['n','u','m','b','e','r']] 1 s) line ||
  existsPos phoneAt line

/-- `/rs\.?\s/i`: `rs`, optional dot, then one whitespace character. -/
def rsWsAt (s : List Char) : Bool :=
  ciPrefix ['r', 's'] s &&
    (match s.drop 2 with
     | '.' :: c :: _ => jsWhitespace c
     | c :: _ => jsWhitespace c
     | [] => false)

/-- `/:\s*(?:Rs\.?|INR|\$|€|£|₹)?\s*[l1IO0-9,]+/i` at one position. -/
def colonNumberAt (s : List Char) : Bool :=
  match s with
  | ':' :: rest =>
    let r1 := skipWs rest
    ([['r','s','.'], ['r','s'], ['i','n','r'], ['$'], ['€'], ['£'],
      ['₹']].any fun cand =>
      ciPrefix cand r1 && !((skipWs (r1.drop cand.length)).takeWhile mainClass).isEmpty)
    || !((skipWs r1).takeWhile mainClass).isEmpty
  | _ => false

/-- `OCRService.isMonetaryLine`. -/
def isMonetaryLine (line : List Char) : Bool :=
  let lowerLine := line.map jsToLower
  if matchesExcludePattern line then false
  else if monetaryKeywords.any (fun kw => containsSub lowerLine kw.data) then true
  else if line.any (fun c => c = '$' || c = '€' || c = '£' || c = '₹') then true
  else if existsPos (fun _ s => rsWsAt s) line then true
  else existsPos (fun _ s => colonNumberAt s) line

/-- The dedup normalisation of `extractNumericTokensFromText`:
`.replace(/[,\s]/g, '').replace(/[lLiI]/g, '1').replace(/O/g, '0')`
(lowercase `o` deliberately survives, as in the source). -/
def extractionNormalize (t : List Char) : List Char :=
  (t.filter (fun c => !(c = ',' || jsWhitespace c))).map fun c =>
    if c = 'l' || c = 'L' || c = 'i' || c = 'I' then '1'
    else if c = 'O' then '0' else c

/-- Loop state of `extractNumericTokensFromText` (`seen` holds normalised
token strings, as the JS `Set` does). -/
structure ExtractState where
  tokens : List String
  seen : List (List Char)

/-- The per-segment capture loop of `extractNumericTokensFromText`. -/
def extractCapLoop : List (List Char) → ExtractState → ExtractState
  | [], st => st
  | cap :: caps, st =>
    let token := jsTrim cap
    if token.isEmpty then extractCapLoop caps st
    else
      let normalizedValue := extractionNormalize token
      if normalizedValue.isEmpty then extractCapLoop caps st
      else if containsSub token ['%'] || containsSub normalizedValue ['%'] then
        extractCapLoop caps st
      else
        match jsParseFloat normalizedValue with
        | none => extractCapLoop caps st
        | some testValue =>
          if testValue ≤ 0 then extractCapLoop caps st
          else if testValue < 1 then extractCapLoop caps st
          else if st.seen.contains normalizedValue then extractCapLoop caps st
          else extractCapLoop caps
            ⟨st.tokens ++ [String.mk token], st.seen ++ [normalizedValue]⟩

/-- The segment loop of `extractNumericTokensFromText`. -/
def extractSegLoop : List (List Char) → ExtractState → ExtractState
  | [], st => st
  | seg :: segs, st =>
    if !isMonetaryLine seg then extractSegLoop segs st
    else extractSegLoop segs (extractCapLoop (scanCaps (tryCands tokenCands) seg) st)

/-- `OCRService.extractNumericTokensFromText`. -/
def extractNumericTokensFromText (text : List Char) : List String :=
  (extractSegLoop (splitSegments text) ⟨[], []⟩).tokens

/-! ### Currency detection -/

/-- How the `\b` after one word-alternative of a currency pattern behaves:
after `rs.` (last character `.`, a non-word character) the boundary demands a
word character next; after the letter-final alternatives it demands a
non-word character or the end. -/
inductive AfterBoundary | wordNext | nonwordNext

def afterOk : AfterBoundary → Option Char → Bool
  | .wordNext, next => next.elim false jsWordChar
  | .nonwordNext, next => bdryAfter next

/-- One currency hint: the `\b(?:alt|…)\b` word alternatives (in alternation
order, on the lowercased text) and the bare symbol alternative. -/
structure CurrencyHint where
  alts : List (List Char × AfterBoundary)
  symbol : Char
  code : String

/-- `this.currencyHints` of `OCRService`, in scan order. -/
def currencyHints : List CurrencyHint :=
  [⟨[(['i','n','r'], .nonwordNext), (['r','s','.'], .wordNext),
     (['r','s'], .nonwordNext), (['r','u','p','e','e','s'], .nonwordNext),
     (['r','u','p','e','e'], .nonwordNext)], '₹', "INR"⟩,
   ⟨[(['u','s','d'], .nonwordNext), (['d','o','l','l','a','r','s'], .nonwordNext),
     (['d','o','l','l','a','r'], .nonwordNext)], '$', "USD"⟩,
   ⟨[(['e','u','r'], .nonwordNext), (['e','u','r','o','s'], .nonwordNext),
     (['e','u','r','o'], .nonwordNext)], '€', "EUR"⟩,
   ⟨[(['g','b','p'], .nonwordNext), (['p','o','u','n','d','s'], .nonwordNext),
     (['p','o','u','n','d'], .nonwordNext)], '£', "GBP"⟩]

/-- One currency pattern at one position of the lowered text: the matched
length, `none` if no match. -/
def hintMatchAt (h : CurrencyHint) (prev : Option Char) (s : List Char) :
    Option ℕ :=
  let word :=
    if bdryBefore prev then
      (h.alts.filter fun (w, ab) =>
        w.isPrefixOf s && afterOk ab (s.drop w.length).head?).head?.map
        (fun (w, _) => w.length)
    else none
  match word with
  | some n => some n
  | none => if s.head? = some h.symbol then some 1 else none

/-- Count the (non-overlapping, leftmost) matches of one currency pattern. -/
def hintCountGo (h : CurrencyHint) : ℕ → Option Char → List Char → ℕ
  | 0, _, _ => 0
  | _, _, [] => 0
  | fuel + 1, prev, s@(c :: rest) =>
    match hintMatchAt h prev s with
    | some len =>
      1 + hintCountGo h fuel ((s.take (max len 1)).getLast? ) (s.drop (max len 1))
    | none => hintCountGo h fuel (some c) rest

def hintCount (h : CurrencyHint) (lowerText : List Char) : ℕ :=
  hintCountGo h lowerText.length none lowerText

structure CurrencyMatch where
  code : String
  count : ℕ
  deriving DecidableEq

/-- Stable descending insertion (the JS `sort((a, b) => b.count - a.count)`
is stable, so an element inserted ahead of its original successors goes
before equal counts). -/
def insertDesc (x : CurrencyMatch) : List CurrencyMatch → List CurrencyMatch
  | [] => [x]
  | y :: ys => if y.count ≤ x.count then x :: y :: ys else y :: insertDesc x ys

def sortDesc : List CurrencyMatch → List CurrencyMatch
  | [] => []
  | x :: xs => insertDesc x (sortDesc xs)

/-- The `currencyMatches` list of `detectCurrency`: one entry per pattern
with a positive match count, in scan order. -/
def buildCurrencyMatches (hints : List CurrencyHint) (lowerText : List Char) :
    List CurrencyMatch :=
  hints.filterMap fun h =>
    if hintCount h lowerText > 0 then some ⟨h.code, hintCount h lowerText⟩
    else none

/-- `OCRService.detectCurrency`. -/
def detectCurrency (text : List Char) : String :=
  match (sortDesc (buildCurrencyMatches currencyHints
      (text.map jsToLower))).head? with
  | some m => m.code
  | none => "USD"

/-! ### Extraction confidence and the text entry point -/

/-- `config.minOcrConfidence` (default configuration). -/
def minOcrConfidence : ℚ := 2/10

/-- `OCRService.calculateConfidence`. -/
def calculateConfidence (ocrConfidence : ℚ) (tokenCount : ℕ)
    (text : List Char) : ℚ :=
  if tokenCount = 0 then 0
  else
    let confidence := if ocrConfidence > 0 then ocrConfidence else 8/10
    let confidence :=
      if 2 ≤ tokenCount && tokenCount ≤ 10 then min (95/100) (confidence + 1/10)
      else if tokenCount = 1 then confidence * (9/10)
      else if tokenCount > 15 then confidence * (8/10)
      else confidence
    let lower := text.map jsToLower
    let kwCount :=
      (monetaryKeywords.filter fun kw => containsSub lower kw.data).length
    let confidence :=
      if 2 ≤ kwCount then min (95/100) (confidence + 5/100) else confidence
    max minOcrConfidence (min (95/100) confidence)

structure ExtractResult where
  raw_tokens : List String
  currency_hint : Option String
  confidence : ℚ
  extracted_text : String
  deriving DecidableEq, Repr

/-- `OCRService.extractFromTextOrImage`, text-only path (no image buffer, so
`ocrConfidence = 0`). -/
def extractFromText (text : String) : ExtractResult :=
  if text.isEmpty || (jsTrim text.data).isEmpty then ⟨[], none, 0, ""⟩
  else
    let rawTokens := extractNumericTokensFromText text.data
    let currencyHint := detectCurrency text.data
    let confidence := calculateConfidence 0 rawTokens.length text.data
    ⟨rawTokens, some currencyHint, round2 confidence, text⟩

/-! ## Classifier service -/

/-- The eleven regular expressions of `this.classificationRules`, as an
enumeration (each is tested with `/i` against the whole snippet). -/
inductive RulePat
  | t0tal | paid | dueWord | balanceWord | subTotal | taxWord | gstWord
  | vatWord | discount | charges | consultation
  deriving DecidableEq, Repr

/-- Case-insensitive whole-word occurrence (`/\b…\b/i`), on the lowered
snippet; the words in use consist of word characters only. -/
def wordOccurs (w : List Char) (ls : List Char) : Bool :=
  existsPos (fun prev s =>
    bdryBefore prev && w.isPrefixOf s && bdryAfter (s.drop w.length).head?) ls

/-- `/sub\s*total/i` on the lowered snippet. -/
def subTotalOccurs (ls : List Char) : Bool :=
  existsPos (fun _ s =>
    ['s','u','b'].isPrefixOf s &&
    ['t','o','t','a','l'].isPrefixOf (skipWs (s.drop 3))) ls

/-- `pattern.test(snippet)` for each rule pattern, evaluated on the lowered
snippet (equivalent to the `/i` flag for these all-letter patterns). -/
def patTest (p : RulePat) (ls : List Char) : Bool :=
  match p with
  | .t0tal => containsSub ls ['t','0','t','a','l'] || containsSub ls ['t','o','t','a','l']
  | .paid => containsSub ls ['p','a','i','d'] || containsSub ls ['p','a','l','d']
  | .dueWord => wordOccurs ['d','u','e'] ls
  | .balanceWord => wordOccurs ['b','a','l','a','n','c','e'] ls
  | .subTotal => subTotalOccurs ls
  | .taxWord => wordOccurs ['t','a','x'] ls
  | .gstWord => wordOccurs ['g','s','t'] ls
  | .vatWord => wordOccurs ['v','a','t'] ls
  | .discount => containsSub ls ['d','i','s','c','o','u','n','t']
  | .charges => containsSub ls ['c','h','a','r','g','e','s']
  | .consultation => containsSub ls ['c','o','n','s','u','l','t','a','t','i','o','n']

structure ClassRule where
  type : String
  keywords : List String
  patterns : List RulePat
  priority : ℕ

/-- `this.classificationRules`, in declaration order. -/
def classificationRules : List ClassRule :=
  [⟨"total_bill",
    ["total amount", "grand total", "invoice total", "net amount", "total",
     "t0tal", "t0tal:"], [.t0tal], 10⟩,
   ⟨"paid",
    ["amount paid", "paid", "received", "payment", "cash", "pald", "pald:"],
    [.paid], 9⟩,
   ⟨"due",
    ["balance due", "due", "balance", "remaining", "outstanding", "due:",
     "balance:"], [.dueWord, .balanceWord], 9⟩,
   ⟨"subtotal", ["subtotal", "sub-total", "sub total", "before tax"],
    [.subTotal], 8⟩,
   ⟨"tax", ["tax", "gst", "vat", "cgst", "sgst", "igst"],
    [.taxWord, .gstWord, .vatWord], 7⟩,
   ⟨"discount", ["discount", "off", "reduction"], [.discount], 6⟩,
   ⟨"service_charge",
    ["room charges", "consultation", "lab tests", "medicines", "charges"],
    [.charges, .consultation], 5⟩]

/-- The pattern loop of `matchSnippetToType`: score `priority × 2` on the
first matching pattern, then `break`; also the `patternMatched` flag. -/
def scanPatterns (priority : ℕ) : List RulePat → List Char → ℕ × Bool
  | [], _ => (0, false)
  | p :: ps, ls =>
    if patTest p ls then (priority * 2, true) else scanPatterns priority ps ls

/-- The keyword loop of `matchSnippetToType`: `priority` per keyword whose
lowercased text occurs in the lowered snippet, keeping the matched keywords
in keyword order. -/
def scanKeywords (priority : ℕ) : List String → List Char → ℕ × List String
  | [], _ => (0, [])
  | kw :: kws, ls =>
    let rest := scanKeywords priority kws ls
    if containsSub ls (kw.data.map jsToLower) then
      (priority + rest.1, kw :: rest.2)
    else rest

/-- The total score one rule gets against one (lowered) snippet. -/
def ruleScore (rule : ClassRule) (ls : List Char) : ℕ :=
  (scanPatterns rule.priority rule.patterns ls).1 +
    (scanKeywords rule.priority rule.keywords ls).1

/-- `bestMatch` record of `matchSnippetToType`. -/
structure RuleMatch where
  type : String
  confidence : ℚ
  keywords : List String
  patternMatched : Bool
  score : ℕ
  deriving DecidableEq, Repr

/-- The rule loop of `matchSnippetToType`: strict improvement
(`score > highestScore`), so the earliest rule wins ties. -/
def msttLoop (ls : List Char) :
    List ClassRule → Option RuleMatch → ℕ → Option RuleMatch
  | [], best, _ => best
  | rule :: rs, best, highest =>
    let pat := scanPatterns rule.priority rule.patterns ls
    let kws := scanKeywords rule.priority rule.keywords ls
    let score := pat.1 + kws.1
    if score > highest then
      msttLoop ls rs
        (some ⟨rule.type, min (95/100) (1/2 + (score : ℚ)/30), kws.2, pat.2,
          score⟩) score
    else msttLoop ls rs best highest

/-- `ClassifierService.matchSnippetToType`. -/
def matchSnippetToType (snippet : String) : Option RuleMatch :=
  msttLoop (snippet.data.map jsToLower) classificationRules none 0

/-- First-seen-order deduplication (the `new Map(...).values()` idiom keeps
each value's first insertion position; only the values are used
downstream). -/
def firstSeenDedup (seen : List ℚ) : List ℚ → List ℚ
  | [] => []
  | v :: vs =>
    if seen.contains v then firstSeenDedup seen vs
    else v :: firstSeenDedup (v :: seen) vs

/-- The normalisation `extractAmountsFromSnippet` applies to a capture:
`.replace(/[,\s]/g, '').replace(/[lL]/g, '1').replace(/[iI]/g, '1')`
`.replace(/O/g, '0')` (again lowercase `o` survives). -/
def snippetNormalize (t : List Char) : List Char :=
  (t.filter (fun c => !(c = ',' || jsWhitespace c))).map fun c =>
    if c = 'l' || c = 'L' || c = 'i' || c = 'I' then '1'
    else if c = 'O' then '0' else c

/-- Prefix candidates of snippet pattern 1 (no `:` alternative). -/
def snippetCands1 : List (List Char) :=
  [['r','s','.'], ['r','s'], ['i','n','r'], ['u','s','d'], ['e','u','r'],
   ['g','b','p'], ['$'], ['€'], ['£'], ['₹']]

/-- Snippet pattern 2,
`/:\s*(?:Rs\.?|INR|\$|€|£|₹)?\s*([l1IO0-9,]+(?:\.[l1IO0-9]{1,2})?)/gi`,
at one position: the optional currency group is tried alternative by
alternative (greedily) before the group-skipped branch. -/
def trySnippetPat2 (s : List Char) : Option (List Char × ℕ) :=
  match s with
  | ':' :: rest =>
    let ws1 := rest.takeWhile jsWhitespace
    let r1 := rest.drop ws1.length
    (match tryCands [['r','s','.'], ['r','s'], ['i','n','r'], ['$'], ['€'],
        ['£'], ['₹']] r1 with
     | some (cap, len) => some (cap, 1 + ws1.length + len)
     | none =>
       match tryCapture r1 with
       | some (cap, len) => some (cap, 1 + ws1.length + len)
       | none => none)
  | _ => none

/-- `ClassifierService.extractAmountsFromSnippet`, reduced to the list of
values (the JS also records `raw`/`position`, which nothing downstream
reads; its `Map`-based dedup keeps first-seen value order). -/
def extractAmountsFromSnippet (snippet : List Char) : List ℚ :=
  let caps := scanCaps (tryCands snippetCands1) snippet ++
    scanCaps trySnippetPat2 snippet
  let amounts := caps.filterMap fun valueStr =>
    match jsParseFloat (snippetNormalize valueStr) with
    | some v => if v > 0 then some (round2 v) else none
    | none => none
  firstSeenDedup [] amounts

structure ClassifiedAmount where
  type : String
  value : ℚ
  source : String
  confidence : ℚ
  deriving DecidableEq, Repr

structure ClassDetail where
  amount : ℚ
  snippet : String
  type : String
  matched_keywords : List String
  pattern_matched : Bool
  deriving DecidableEq, Repr

/-- Output entry of `classifyAmounts` (`confidence` stripped by the final
`map`). -/
structure AmountEntry where
  type : String
  value : ℚ
  source : String
  deriving DecidableEq, Repr

structure ClassifyResult where
  amounts : List AmountEntry
  confidence : ℚ
  classification_details : List ClassDetail
  deriving DecidableEq, Repr

/-- Loop state of `classifyAmounts`; `pairs` mirrors the `classifiedPairs`
set of `"type:value"` keys (the key is injective in the pair, since no type
contains a colon).  The `amountUsage` map is omitted: the JS never reads
it. -/
structure ClassifyState where
  amounts : List ClassifiedAmount
  details : List ClassDetail
  pairs : List (String × ℚ)

/-- `snippet.length > 80 ? snippet.substring(0, 80) + '...' : snippet`. -/
def truncateSnippet (snippet : List Char) : List Char :=
  if snippet.length > 80 then snippet.take 80 ++ ['.','.','.'] else snippet

/-- The inner (per extracted value) loop of `classifyAmounts`. -/
def classifyValueLoop (nas : List ℚ) (snippet : List Char) :
    List ℚ → ClassifyState → ClassifyState
  | [], st => st
  | value :: vs, st =>
    match nas.find? (fun na => |na - value| < 1/100) with
    | none => classifyValueLoop nas snippet vs st
    | some matchedAmount =>
      match matchSnippetToType (String.mk snippet) with
      | none => classifyValueLoop nas snippet vs st
      | some classification =>
        if classification.confidence ≤ 1/2 then
          classifyValueLoop nas snippet vs st
        else if st.pairs.contains (classification.type, matchedAmount) then
          classifyValueLoop nas snippet vs st
        else
          let truncated := truncateSnippet snippet
          classifyValueLoop nas snippet vs
            { amounts := st.amounts ++
                [⟨classification.type, matchedAmount,
                  "text: '" ++ String.mk truncated ++ "'",
                  classification.confidence⟩]
              details := st.details ++
                [⟨matchedAmount, String.mk snippet, classification.type,
                  classification.keywords, classification.patternMatched⟩]
              pairs := st.pairs ++ [(classification.type, matchedAmount)] }

/-- The outer (per snippet) loop of `classifyAmounts`. -/
def classifySnippetLoop (nas : List ℚ) :
    List (List Char) → ClassifyState → ClassifyState
  | [], st => st
  | snippet :: rest, st =>
    classifySnippetLoop nas rest
      (classifyValueLoop nas snippet (extractAmountsFromSnippet snippet) st)

/-- `config.minClassificationConfidence` (default configuration). -/
def minClassificationConfidence : ℚ := 4/10

/-- `ClassifierService.calculateClassificationConfidence`. -/
def calculateClassificationConfidence (amounts : List ClassifiedAmount)
    (totalAmounts : ℕ) : ℚ :=
  if totalAmounts = 0 then 0
  else
    let classificationRate := (amounts.length : ℚ) / (totalAmounts : ℚ)
    let confidence := 4/10 + classificationRate * (3/10)
    let explicitMatches :=
      (amounts.filter fun a =>
        !containsSub a.source.data "heuristic".data).length
    let confidence :=
      if amounts.length > 0 then
        confidence + ((explicitMatches : ℚ) / (amounts.length : ℚ)) * (3/10)
      else confidence
    let types := amounts.map (·.type)
    let confidence :=
      if types.contains "total_bill" then confidence + 5/100 else confidence
    let confidence :=
      if types.contains "paid" then confidence + 5/100 else confidence
    let confidence :=
      if types.contains "due" then confidence + 5/100 else confidence
    max minClassificationConfidence (min (95/100) confidence)

/-- `ClassifierService.classifyAmounts` (the falsy guard on `text` /
`normalizedAmounts` reads, for the embedded value domain, "empty string or
empty list"). -/
def classifyAmounts (text : String) (normalizedAmounts : List ℚ) :
    ClassifyResult :=
  if text.isEmpty || normalizedAmounts.isEmpty then ⟨[], 0, []⟩
  else
    let snippets := splitSegments text.data
    let st := classifySnippetLoop normalizedAmounts snippets ⟨[], [], []⟩
    let confidence :=
      calculateClassificationConfidence st.amounts normalizedAmounts.length
    ⟨st.amounts.map (fun a => ⟨a.type, a.value, a.source⟩),
      round2 confidence, st.details⟩

/-! ### validateClassification -/

/-- The two kinds of issue `validateClassification` can report (the JS
renders them as message strings; the carried data is what the checks
compute). -/
inductive VIssue
  | multipleAmounts (type : String) (values : List ℚ)
  | inconsistentAmounts (total paid due : ℚ)
  deriving DecidableEq, Repr

/-- An amount as `validateClassification` reads it (`type` and `value` are
the only fields it touches). -/
structure TypedAmount where
  type : String
  value : ℚ
  deriving DecidableEq, Repr

structure ValidationResult where
  valid : Bool
  issues : List VIssue
  deriving DecidableEq, Repr

/-- `typeMap[type]`: the values of all entries of one type, in entry
order. -/
def typeValues (amounts : List TypedAmount) (t : String) : List ℚ :=
  (amounts.filter (fun a => a.type = t)).map (·.value)

def singletonTypes : List String := ["total_bill", "subtotal", "paid"]

/-- The soft-singleton loop of `validateClassification`: one issue per
singleton type with more than one *entry* in `typeMap` (the JS compares
`typeMap[type].length`, entry count, not distinct values). -/
def singletonIssues (amounts : List TypedAmount) : List VIssue :=
  (singletonTypes.filter
      (fun t => (typeValues amounts t).length > 1)).map
    (fun t => VIssue.multipleAmounts t (typeValues amounts t))

/-- The total/paid/due consistency check of `validateClassification`
(pushing nothing is modelled as appending the empty list). -/
def consistencyIssues (amounts : List TypedAmount) : List VIssue :=
  if !(typeValues amounts "total_bill").isEmpty &&
     !(typeValues amounts "paid").isEmpty &&
     !(typeValues amounts "due").isEmpty then
    if |(((typeValues amounts "total_bill").headD 0 -
          (typeValues amounts "paid").headD 0) : ℚ) -
        ((typeValues amounts "due").max?).getD 0| > 1 then
      [VIssue.inconsistentAmounts ((typeValues amounts "total_bill").headD 0)
        ((typeValues amounts "paid").headD 0)
        (((typeValues amounts "due").max?).getD 0)]
    else []
  else []

/-- `ClassifierService.validateClassification`. -/
def validateClassification (amounts : List TypedAmount) : ValidationResult :=
  let issues := singletonIssues amounts ++ consistencyIssues amounts
  ⟨issues.isEmpty, issues⟩

/-! ## Pipeline orchestrator (`POST /api/final`, text input) -/

/-- `validators.sanitizeText`: drop NUL and the control characters other
than tab, newline and carriage return. -/
def sanitizeText (text : String) : String :=
  String.mk (text.data.filter fun c =>
    !(c = '\x00' || ('\x01' ≤ c && c ≤ '\x08') || c = '\x0b' || c = '\x0c' ||
      ('\x0e' ≤ c && c ≤ '\x1f') || c = '\x7f'))

structure PipelineMetadata where
  extraction_confidence : ℚ
  normalization_confidence : ℚ
  classification_confidence : ℚ
  total_tokens_extracted : ℕ
  amounts_normalized : ℕ
  amounts_classified : ℕ
  deriving DecidableEq, Repr

inductive PipelineResult
  /-- 400 `missing_input`: no text (no image in the text-only embedding). -/
  | missingInput
  | noAmountsFound (reason : String) (extracted_text : String)
  | normalizationFailed (reason : String) (raw_tokens : List String)
    (extracted_text : String)
  | ok (currency : String) (amounts : List AmountEntry)
    (metadata : PipelineMetadata)
  deriving DecidableEq, Repr

/-- The `/api/final` route on a text body, LLM validation disabled (no
credential configured, under which the route leaves the result
untouched). -/
def runPipeline (text : String) : PipelineResult :=
  if text.isEmpty then .missingInput
  else
    let sanitizedText := sanitizeText text
    let ocrResult := extractFromText sanitizedText
    if ocrResult.raw_tokens.isEmpty then
      .noAmountsFound "document too noisy or contains no numeric amounts"
        ocrResult.extracted_text
    else
      let normalizedResult := normalizeTokens ocrResult.raw_tokens
      if normalizedResult.normalized_amounts.isEmpty then
        .normalizationFailed
          "could not parse any valid numeric amounts from extracted tokens"
          ocrResult.raw_tokens ocrResult.extracted_text
      else
        let classifiedResult := classifyAmounts
          (if !ocrResult.extracted_text.isEmpty then ocrResult.extracted_text
           else if !sanitizedText.isEmpty then sanitizedText else "")
          normalizedResult.normalized_amounts
        .ok (ocrResult.currency_hint.getD "UNKNOWN")
          (classifiedResult.amounts.map fun a =>
            ⟨a.type, a.value, if a.source.isEmpty then "inferred" else a.source⟩)
          ⟨ocrResult.confidence, normalizedResult.normalization_confidence,
            classifiedResult.confidence, ocrResult.raw_tokens.length,
            normalizedResult.normalized_amounts.length,
            classifiedResult.amounts.length⟩

/-! ## Reference definitions used by the claim statements -/

/-- The rounded value a token parses to, if any. -/
def parsedValue (t : String) : Option ℚ := (parseNumeric t).map (·.value)

/-- Values parsed from the first `i` tokens (duplicates included). -/
def seenBefore (tokens : List String) (i : ℕ) : List ℚ :=
  (tokens.take i).filterMap parsedValue

/-- Placeholder detail for `getD`. -/
def defaultDetail : NormDetail := ⟨"", "", none, false, none⟩

/-- Placeholder rule for `getD`. -/
def dummyRule : ClassRule := ⟨"", [], [], 0⟩

/-- Placeholder hint for `getD`. -/
def dummyHint : CurrencyHint := ⟨[], ' ', ""⟩

/-! ## Claim theorems -/

/-- C10.  With an empty (JS-falsy) text or an empty normalized-amounts list,
`classifyAmounts` returns the empty result `{amounts: [], confidence: 0,
classification_details: []}` (a total function in the embedding: the JS path
provably throws nothing and leaves no partial state). -/
theorem classifyAmounts_empty_guard (text : String) (nas : List ℚ)
    (h : text = "" ∨ nas = []) :
    classifyAmounts text nas = ⟨[], 0, []⟩ := by
  have : (("" : String).isEmpty) = true := rfl
  rcases h with h | h <;> subst h <;> simp [classifyAmounts, this]

theorem classifyAmounts_empty_guard_witness :
    classifyAmounts "" [5] = ⟨[], 0, []⟩ :=
  classifyAmounts_empty_guard "" [5] (Or.inl rfl)

/-- C1.  The `/api/final` pipeline is a three-stage guardrail cascade: with
nonempty input it returns `no_amounts_found` (reason plus extracted text)
exactly when extraction yields no raw tokens; otherwise `normalization_failed`
(raw tokens plus extracted text) exactly when normalization yields no
amounts; and only otherwise does it run the classifier and answer `ok`. -/
theorem pipeline_guardrail_stages (text : String) (h : text ≠ "") :
    ((extractFromText (sanitizeText text)).raw_tokens = [] →
      runPipeline text =
        .noAmountsFound "document too noisy or contains no numeric amounts"
          (extractFromText (sanitizeText text)).extracted_text) ∧
     ((extractFromText (sanitizeText text)).raw_tokens ≠ [] →
      (normalizeTokens
        (extractFromText (sanitizeText text)).raw_tokens).normalized_amounts = [] →
      runPipeline text =
        .normalizationFailed
          "could not parse any valid numeric amounts from extracted tokens"
          (extractFromText (sanitizeText text)).raw_tokens
          (extractFromText (sanitizeText text)).extracted_text) ∧
     ((extractFromText (sanitizeText text)).raw_tokens ≠ [] →
      (normalizeTokens
        (extractFromText (sanitizeText text)).raw_tokens).normalized_amounts ≠ [] →
      runPipeline text =
        .ok ((extractFromText (sanitizeText text)).currency_hint.getD "UNKNOWN")
          ((classifyAmounts
            (if !(extractFromText (sanitizeText text)).extracted_text.isEmpty
             then (extractFromText (sanitizeText text)).extracted_text
             else if !(sanitizeText text).isEmpty then sanitizeText text
             else "")
            (normalizeTokens
              (extractFromText (sanitizeText text)).raw_tokens).normalized_amounts).amounts.map
              fun a =>
                ⟨a.type, a.value,
                  if a.source.isEmpty then "inferred" else a.source⟩)
          ⟨(extractFromText (sanitizeText text)).confidence,
            (normalizeTokens
              (extractFromText (sanitizeText text)).raw_tokens).normalization_confidence,
            (classifyAmounts
              (if !(extractFromText (sanitizeText text)).extracted_text.isEmpty
               then (extractFromText (sanitizeText text)).extracted_text
               else if !(sanitizeText text).isEmpty then sanitizeText text
               else "")
              (normalizeTokens
                (extractFromText (sanitizeText text)).raw_tokens).normalized_amounts).confidence,
            (extractFromText (sanitizeText text)).raw_tokens.length,
            (normalizeTokens
              (extractFromText (sanitizeText text)).raw_tokens).normalized_amounts.length,
            (classifyAmounts
              (if !(extractFromText (sanitizeText text)).extracted_text.isEmpty
               then (extractFromText (sanitizeText text)).extracted_text
               else if !(sanitizeText text).isEmpty then sanitizeText text
               else "")
              (normalizeTokens
                (extractFromText (sanitizeText text)).raw_tokens).normalized_amounts).amounts.length⟩) := by
  have hne : text.isEmpty = false := by
    rw [Bool.eq_false_iff]
    intro hh
    exact h ((String.isEmpty_iff _).mp hh)
  refine ⟨fun h1 => ?_, fun h1 h2 => ?_, fun h1 h2 => ?_⟩
  · have e1 : (extractFromText (sanitizeText text)).raw_tokens.isEmpty = true := by
      simp [h1]
    simp only [runPipeline, hne, Bool.false_eq_true, if_false, e1, if_true]
  · have e1 : (extractFromText (sanitizeText text)).raw_tokens.isEmpty = false := by
      simp [List.isEmpty_iff, h1]
    have e2 : (normalizeTokens
        (extractFromText (sanitizeText text)).raw_tokens).normalized_amounts.isEmpty
        = true := by simp [h2]
    simp only [runPipeline, hne, Bool.false_eq_true, if_false, e1, e2, if_true]
  · have e1 : (extractFromText (sanitizeText text)).raw_tokens.isEmpty = false := by
      simp [List.isEmpty_iff, h1]
    have e2 : (normalizeTokens
        (extractFromText (sanitizeText text)).raw_tokens).normalized_amounts.isEmpty
        = false := by simp [List.isEmpty_iff, h2]
    simp only [runPipeline, hne, Bool.false_eq_true, if_false, e1, e2, if_true]

theorem pipeline_guardrail_stages_witness :
    runPipeline "This is a document with no numbers or amounts in it at all." =
      .noAmountsFound "document too noisy or contains no numeric amounts"
        "This is a document with no numbers or amounts in it at all." :=
  (pipeline_guardrail_stages
    "This is a document with no numbers or amounts in it at all."
    (by decide)).1 (by decide)

/-! ### C4: the decimal point never survives `fixOcrDigits` -/

theorem digitCorrections_digit (c d : Char) (h : digitCorrections c = some d) :
    jsDigit d = true := by
  unfold digitCorrections at h
  split at h <;> simp_all <;> subst h <;> decide

theorem correctionStep_no_dot (prev : Option Char) (c : Char)
    (next : Option Char) (hc : c ≠ '.') : '.' ∉ correctionStep prev c next := by
  intro hm
  rcases hdc : digitCorrections c with _ | d <;>
    rcases hadj : (prev.elim false jsDigit) || (next.elim false jsDigit) <;>
    simp only [correctionStep, hdc, hadj] at hm <;>
    [skip; skip; skip; (· exact absurd (digitCorrections_digit c '.'
      (List.mem_singleton.mp hm ▸ hdc)) (by decide))] <;>
    split at hm <;>
    simp_all <;>
    exact hc hm.symm

theorem correctionGo_no_dot (l : List Char) (prev : Option Char)
    (h : '.' ∉ l) : '.' ∉ correctionGo prev l := by
  induction l generalizing prev with
  | nil => simp [correctionGo]
  | cons c rest ih =>
    simp only [correctionGo, List.mem_append]
    push_neg
    refine ⟨correctionStep_no_dot prev c rest.head? ?_, ih (some c) ?_⟩
    · intro hc
      exact h (hc ▸ List.mem_cons_self c rest)
    · intro hm
      exact h (List.mem_cons_of_mem c hm)

theorem splitOnPred_no_delim (p : Char → Bool) (l : List Char)
    (h : ∀ c ∈ l, p c = false) : splitOnPred p l = [l] := by
  induction l with
  | nil => rfl
  | cons c rest ih =>
    have hc : p c = false := h c (List.mem_cons_self c rest)
    have := ih (fun x hx => h x (List.mem_cons_of_mem c hx))
    simp [splitOnPred, hc, this]

theorem collapseDots_no_dot (l : List Char) (h : '.' ∉ l) :
    collapseDots l = l := by
  have : splitOnPred (fun c => c = '.') l = [l] := by
    refine splitOnPred_no_delim _ l fun c hc => ?_
    simp only [decide_eq_false_iff_not]
    intro hcc
    exact h (hcc ▸ hc)
  simp [collapseDots, this]

/-- C4.  The claim reads `fixOcrDigits` as retaining `.` (so that `"12.50"`
parses to `12.5`); in the code the "currency symbol" strip
`/[Rs\.\$€£₹]/gi` is a character class that deletes every dot first, so no
output of `fixOcrDigits` ever contains a decimal point and `"12.50"`
normalizes to `1250`.  (The dead multiple-decimal-point collapse and the
`Keep digits, dots, and commas` comment in the source show the claim is the
intended behaviour.) -/
theorem fixOcrDigits_strips_decimal_point :
    (∀ token : String, '.' ∉ (fixOcrDigits token).data) ∧
    fixOcrDigits "12.50" = "1250" ∧
    (parseNumeric "12.50").map (·.value) = some 1250 := by
  refine ⟨?_, by with_unfolding_all decide, by with_unfolding_all decide⟩
  intro token
  have h1 : '.' ∉ stripSymbolsWs (jsTrim token.data) := by
    intro hm
    unfold stripSymbolsWs at hm
    have := (List.mem_filter.mp (List.mem_filter.mp hm).1).2
    simp at this
  have h2 := correctionGo_no_dot _ none h1
  have h3 : '.' ∉ ((correctionPass (stripSymbolsWs (jsTrim token.data))).filter
      (fun c => !(c = ','))).filter (fun c => jsDigit c || c = '.') := by
    intro hm
    exact h2 (List.mem_filter.mp (List.mem_filter.mp hm).1).1
  show '.' ∉ collapseDots (((correctionPass
    (stripSymbolsWs (jsTrim token.data))).filter
      (fun c => !(c = ','))).filter (fun c => jsDigit c || c = '.'))
  rw [collapseDots_no_dot _ h3]
  exact h3

/-! ### C8: the `'percentage'` reason is unreachable -/

/-- C8 counterexample.  The claim (with the spec) says a `%` token is
recorded with `reason: 'percentage'`; on `normalize(["10%"])` the code
records `reason: 'invalid_format'` (in `normalizeTokens` the detail reason is
`parsed ? 'percentage' : 'invalid_format'`, and `parseNumeric` returns `null`
for every `%` token, so the `'percentage'` arm can never be taken). -/
theorem normalizeTokens_percentage_reason_counterexample :
    ((normalizeTokens ["10%"]).details.getD 0 defaultDetail).reason =
      some "invalid_format" ∧
    ¬ ((normalizeTokens ["10%"]).details.getD 0 defaultDetail).reason =
      some "percentage" := by
  constructor <;> decide

/-! ### C9: singleton flags count entries, not distinct values -/

/-- C9 counterexample.  The claim says a soft-singleton issue is raised
exactly when the type has more than one *distinct* value; two `total_bill`
entries sharing the single value 100 are nevertheless flagged
(`typeMap[type].length > 1` counts entries), making `valid = false`. -/
theorem validateClassification_distinct_counterexample :
    (validateClassification
      [⟨"total_bill", 100⟩, ⟨"total_bill", 100⟩]).valid = false ∧
    (typeValues [⟨"total_bill", (100 : ℚ)⟩, ⟨"total_bill", 100⟩]
      "total_bill").dedup = [100] := by
  constructor <;> decide

theorem consistencyIssues_shape (amounts : List TypedAmount) (iss : VIssue)
    (h : iss ∈ consistencyIssues amounts) :
    ∃ a b c, iss = VIssue.inconsistentAmounts a b c := by
  unfold consistencyIssues at h
  split at h
  · split at h
    · rw [List.mem_singleton] at h
      exact ⟨_, _, _, h⟩
    · simp at h
  · simp at h

/-- C9 (amended).  A soft-singleton type (`total_bill`, `subtotal`, `paid`)
is flagged — and `valid` forced to `false` — exactly when it has more than
one *entry* among the amounts, whether or not the values are distinct; in
particular two `total_bill` entries with different values give
`valid = false`. -/
theorem validateClassification_singleton_entries (amounts : List TypedAmount) :
    (∀ t ∈ singletonTypes,
      ((∃ vs, VIssue.multipleAmounts t vs ∈
          (validateClassification amounts).issues) ↔
        1 < (typeValues amounts t).length)) ∧
    (∀ t ∈ singletonTypes, 1 < (typeValues amounts t).length →
      (validateClassification amounts).valid = false) := by
  have hmem : ∀ t ∈ singletonTypes,
      ((∃ vs, VIssue.multipleAmounts t vs ∈ singletonIssues amounts) ↔
        1 < (typeValues amounts t).length) := by
    intro t ht
    constructor
    · rintro ⟨vs, hv⟩
      unfold singletonIssues at hv
      obtain ⟨t', ht', he⟩ := List.mem_map.mp hv
      obtain ⟨rfl, _⟩ : t' = t ∧ vs = typeValues amounts t' := by
        cases he
        exact ⟨rfl, rfl⟩
      exact Nat.lt_of_lt_of_eq (by simpa using (List.mem_filter.mp ht').2) rfl
    · intro hlen
      refine ⟨typeValues amounts t, ?_⟩
      unfold singletonIssues
      exact List.mem_map.mpr ⟨t, List.mem_filter.mpr ⟨ht, by simpa using hlen⟩,
        rfl⟩
  constructor
  · intro t ht
    rw [← hmem t ht]
    unfold validateClassification
    constructor
    · rintro ⟨vs, hv⟩
      rcases List.mem_append.mp hv with hv | hv
      · exact ⟨vs, hv⟩
      · obtain ⟨a, b, c, he⟩ := consistencyIssues_shape amounts _ hv
        exact absurd he (by simp)
    · rintro ⟨vs, hv⟩
      exact ⟨vs, List.mem_append.mpr (Or.inl hv)⟩
  · intro t ht hlen
    have hne : singletonIssues amounts ≠ [] := by
      intro hnil
      obtain ⟨vs, hv⟩ := (hmem t ht).mpr hlen
      rw [hnil] at hv
      exact absurd hv (List.not_mem_nil _)
    show (singletonIssues amounts ++ consistencyIssues amounts).isEmpty = false
    rw [Bool.eq_false_iff]
    intro hcon
    exact hne (List.append_eq_nil.mp (List.isEmpty_iff.mp hcon)).1

theorem validateClassification_singleton_entries_witness :
    (validateClassification
      [⟨"total_bill", 1⟩, ⟨"total_bill", 2⟩]).valid = false :=
  (validateClassification_singleton_entries
    [⟨"total_bill", 1⟩, ⟨"total_bill", 2⟩]).2 "total_bill" (by decide)
    (by decide)

/-! ### C2/C8: characterizing `normalizeTokens` -/

/-- `List.contains` agrees with membership (all `BEq` instances in this
development derive from `DecidableEq`). -/
theorem contains_iff_mem {α : Type} [BEq α] [LawfulBEq α] {l : List α}
    {v : α} : l.contains v = true ↔ v ∈ l := List.elem_iff

/-- Reference recursion for the value list `normalizeTokens` accumulates
(`seen` grows at the tail, exactly as the loop appends). -/
def refAmounts (seen : List ℚ) : List String → List ℚ
  | [] => []
  | t :: ts =>
    match parseNumeric t with
    | some p =>
      if seen.contains p.value then refAmounts seen ts
      else p.value :: refAmounts (seen ++ [p.value]) ts
    | none => refAmounts seen ts

/-- Reference recursion for the detail list of `normalizeTokens`. -/
def refDetails (seen : List ℚ) : List String → List NormDetail
  | [] => []
  | t :: ts =>
    match parseNumeric t with
    | some p =>
      if seen.contains p.value then
        ⟨p.original, p.normalized, some p.value, false, some "duplicate"⟩ ::
          refDetails seen ts
      else
        ⟨p.original, p.normalized, some p.value, true, none⟩ ::
          refDetails (seen ++ [p.value]) ts
    | none =>
      ⟨t, fixOcrDigits t, none, false, some "invalid_format"⟩ ::
        refDetails seen ts

theorem normLoop_eq (ts : List String) (st : NormState) :
    normLoop ts st =
      ⟨st.amounts ++ refAmounts st.seenValues ts,
       st.details ++ refDetails st.seenValues ts,
       st.seenValues ++ refAmounts st.seenValues ts,
       st.successfulParsed + (refAmounts st.seenValues ts).length⟩ := by
  induction ts generalizing st with
  | nil => simp [normLoop, refAmounts, refDetails]
  | cons t ts ih =>
    cases hp : parseNumeric t with
    | none =>
      simp [normLoop, refAmounts, refDetails, hp, ih]
    | some p =>
      by_cases hs : p.value ∈ st.seenValues
      · have hsb : st.seenValues.contains p.value = true := contains_iff_mem.mpr hs
        simp [normLoop, refAmounts, refDetails, hp, hs, hsb, ih]
      · have hsb : st.seenValues.contains p.value = false := by
          rw [Bool.eq_false_iff]
          exact fun hc => hs (contains_iff_mem.mp hc)
        simp [normLoop, refAmounts, refDetails, hp, hs, hsb, ih, Nat.add_assoc,
          Nat.add_comm 1]

theorem normalizeTokens_eq (tokens : List String) :
    (normalizeTokens tokens).normalized_amounts = refAmounts [] tokens ∧
    (normalizeTokens tokens).details = refDetails [] tokens := by
  by_cases h : tokens.isEmpty
  · have : tokens = [] := List.isEmpty_iff.mp h
    subst this
    exact ⟨rfl, rfl⟩
  · have hb : tokens.isEmpty = false := Bool.eq_false_iff.mpr h
    constructor <;>
      simp only [normalizeTokens, hb, Bool.false_eq_true, if_false,
        normLoop_eq, List.nil_append]

theorem refAmounts_congr (ts : List String) :
    ∀ seen seen' : List ℚ, (∀ x : ℚ, x ∈ seen ↔ x ∈ seen') →
    refAmounts seen ts = firstSeenDedup seen' (ts.filterMap parsedValue) := by
  induction ts with
  | nil => intro seen seen' _; simp [refAmounts, firstSeenDedup]
  | cons t ts ih =>
    intro seen seen' hsame
    cases hp : parseNumeric t with
    | none =>
      have hpv : parsedValue t = none := by simp [parsedValue, hp]
      simp only [refAmounts, hp, List.filterMap_cons, hpv]
      exact ih seen seen' hsame
    | some p =>
      have hpv : parsedValue t = some p.value := by simp [parsedValue, hp]
      by_cases hs : p.value ∈ seen'
      · have h1 : seen.contains p.value = true :=
          contains_iff_mem.mpr ((hsame _).mpr hs)
        have h2 : seen'.contains p.value = true := contains_iff_mem.mpr hs
        simp only [refAmounts, hp, List.filterMap_cons, hpv, firstSeenDedup,
          h1, h2, if_true]
        exact ih seen seen' hsame
      · have h1 : seen.contains p.value = false := by
          rw [Bool.eq_false_iff]
          exact fun hc => hs ((hsame _).mp (contains_iff_mem.mp hc))
        have h2 : seen'.contains p.value = false := by
          rw [Bool.eq_false_iff]
          exact fun hc => hs (contains_iff_mem.mp hc)
        simp only [refAmounts, hp, List.filterMap_cons, hpv, firstSeenDedup,
          h1, h2, Bool.false_eq_true, if_false]
        refine congrArg _ (ih (seen ++ [p.value]) (p.value :: seen') ?_)
        intro x
        simp only [List.mem_append, List.mem_singleton, List.mem_cons,
          List.not_mem_nil, or_false, hsame x]
        exact or_comm

theorem refDetails_length (ts : List String) :
    ∀ seen : List ℚ, (refDetails seen ts).length = ts.length := by
  induction ts with
  | nil => intro seen; rfl
  | cons t ts ih =>
    intro seen
    cases hp : parseNumeric t with
    | none => simp [refDetails, hp, ih]
    | some p =>
      by_cases hs : p.value ∈ seen
      · have hsb : seen.contains p.value = true := contains_iff_mem.mpr hs
        simp [refDetails, hp, hs, hsb, ih]
      · have hsb : seen.contains p.value = false := by
          rw [Bool.eq_false_iff]
          exact fun hc => hs (contains_iff_mem.mp hc)
        simp [refDetails, hp, hs, hsb, ih]

theorem refDetails_getD (ts : List String) :
    ∀ (seen : List ℚ) (i : ℕ), i < ts.length →
    (∀ p, parseNumeric (ts.getD i "") = some p →
      ((p.value ∈ seen ∨ p.value ∈ (ts.take i).filterMap parsedValue →
        (refDetails seen ts).getD i defaultDetail =
          ⟨p.original, p.normalized, some p.value, false, some "duplicate"⟩) ∧
       (¬(p.value ∈ seen ∨ p.value ∈ (ts.take i).filterMap parsedValue) →
        (refDetails seen ts).getD i defaultDetail =
          ⟨p.original, p.normalized, some p.value, true, none⟩))) ∧
    (parseNumeric (ts.getD i "") = none →
      (refDetails seen ts).getD i defaultDetail =
        ⟨ts.getD i "", fixOcrDigits (ts.getD i ""), none, false,
          some "invalid_format"⟩) := by
  induction ts with
  | nil => intro seen i hi; exact absurd hi (by simp)
  | cons t ts ih =>
    intro seen i hi
    cases i with
    | zero =>
      have hgd : (t :: ts).getD 0 "" = t := rfl
      rw [hgd]
      constructor
      · intro p hp'
        constructor
        · intro hmem
          have hmem0 : p.value ∈ seen := by
            rcases hmem with h | h
            · exact h
            · simp at h
          have hc : seen.contains p.value = true := contains_iff_mem.mpr hmem0
          simp [refDetails, hp', hmem0, hc]
        · intro hmem
          push_neg at hmem
          have hc : seen.contains p.value = false := by
            rw [Bool.eq_false_iff]
            exact fun hcc => hmem.1 (contains_iff_mem.mp hcc)
          simp [refDetails, hp', hmem.1, hc]
      · intro hp'
        simp [refDetails, hp']
    | succ i =>
      have hi' : i < ts.length := by simpa using hi
      have hgd : (t :: ts).getD (i + 1) "" = ts.getD i "" := by
        simp [List.getD]
      rw [hgd]
      cases hp : parseNumeric t with
      | none =>
        have hpv : parsedValue t = none := by simp [parsedValue, hp]
        have htake : ((t :: ts).take (i + 1)).filterMap parsedValue =
            (ts.take i).filterMap parsedValue := by
          simp [List.take_succ_cons, List.filterMap_cons, hpv]
        rw [htake]
        have hdrop : ∀ seen',
            (refDetails seen' (t :: ts)).getD (i + 1) defaultDetail =
              (refDetails seen' ts).getD i defaultDetail := by
          intro seen'
          simp [refDetails, hp, List.getD]
        constructor
        · intro p hpp
          refine ⟨fun hmem => ?_, fun hmem => ?_⟩ <;>
            rw [hdrop seen]
          · exact ((ih seen i hi').1 p hpp).1 hmem
          · exact ((ih seen i hi').1 p hpp).2 hmem
        · intro hpp
          rw [hdrop seen]
          exact (ih seen i hi').2 hpp
      | some q =>
        have hpv : parsedValue t = some q.value := by simp [parsedValue, hp]
        have htake : ((t :: ts).take (i + 1)).filterMap parsedValue =
            q.value :: (ts.take i).filterMap parsedValue := by
          simp [List.take_succ_cons, List.filterMap_cons, hpv]
        rw [htake]
        by_cases hs : q.value ∈ seen
        · have hsb : seen.contains q.value = true := contains_iff_mem.mpr hs
          have hdrop : (refDetails seen (t :: ts)).getD (i + 1) defaultDetail =
              (refDetails seen ts).getD i defaultDetail := by
            simp [refDetails, hp, hs, hsb, List.getD]
          rw [hdrop]
          constructor
          · intro p hpp
            constructor
            · intro hmem
              have hmem' : p.value ∈ seen ∨
                  p.value ∈ (ts.take i).filterMap parsedValue := by
                rcases hmem with h | h
                · exact Or.inl h
                · rcases List.mem_cons.mp h with h | h
                  · exact Or.inl (h ▸ hs)
                  · exact Or.inr h
              exact ((ih seen i hi').1 p hpp).1 hmem'
            · intro hmem
              push_neg at hmem
              have hmem' : ¬(p.value ∈ seen ∨
                  p.value ∈ (ts.take i).filterMap parsedValue) := by
                push_neg
                exact ⟨hmem.1, fun hc => hmem.2 (List.mem_cons_of_mem _ hc)⟩
              exact ((ih seen i hi').1 p hpp).2 hmem'
          · intro hpp
            exact (ih seen i hi').2 hpp
        · have hsb : seen.contains q.value = false := by
            rw [Bool.eq_false_iff]
            exact fun hc => hs (contains_iff_mem.mp hc)
          have hdrop : (refDetails seen (t :: ts)).getD (i + 1) defaultDetail =
              (refDetails (seen ++ [q.value]) ts).getD i defaultDetail := by
            simp [refDetails, hp, hs, hsb, List.getD]
          rw [hdrop]
          constructor
          · intro p hpp
            constructor
            · intro hmem
              have hmem' : p.value ∈ seen ++ [q.value] ∨
                  p.value ∈ (ts.take i).filterMap parsedValue := by
                rcases hmem with h | h
                · exact Or.inl (List.mem_append.mpr (Or.inl h))
                · rcases List.mem_cons.mp h with h | h
                  · exact Or.inl (List.mem_append.mpr (Or.inr (by simp [h])))
                  · exact Or.inr h
              exact ((ih (seen ++ [q.value]) i hi').1 p hpp).1 hmem'
            · intro hmem
              push_neg at hmem
              have hmem' : ¬(p.value ∈ seen ++ [q.value] ∨
                  p.value ∈ (ts.take i).filterMap parsedValue) := by
                push_neg
                constructor
                · intro hc
                  rcases List.mem_append.mp hc with h | h
                  · exact hmem.1 h
                  · have : p.value = q.value := by simpa using h
                    exact hmem.2 (this ▸ List.mem_cons_self _ _)
                · exact fun hc => hmem.2 (List.mem_cons_of_mem _ hc)
              exact ((ih (seen ++ [q.value]) i hi').1 p hpp).2 hmem'
          · intro hpp
            exact (ih (seen ++ [q.value]) i hi').2 hpp

/-- C2.  `normalizeTokens` keeps the first token parsing to a given rounded
value (`success: true`), records every later token mapping to an
already-seen value as `success: false, reason: 'duplicate'`, and its
deduplicated value list is exactly the parsed values in first-seen order;
`normalize(["l200","1200"])` gives `normalized_amounts == [1200]` with
exactly one successful detail. -/
theorem normalizeTokens_first_seen_dedup (tokens : List String) :
    (normalizeTokens tokens).normalized_amounts =
      firstSeenDedup [] (tokens.filterMap parsedValue) ∧
    (normalizeTokens tokens).details.length = tokens.length ∧
    (∀ i, i < tokens.length → ∀ p, parseNumeric (tokens.getD i "") = some p →
      ((p.value ∉ seenBefore tokens i →
        (normalizeTokens tokens).details.getD i defaultDetail =
          ⟨p.original, p.normalized, some p.value, true, none⟩) ∧
       (p.value ∈ seenBefore tokens i →
        (normalizeTokens tokens).details.getD i defaultDetail =
          ⟨p.original, p.normalized, some p.value, false, some "duplicate"⟩))) ∧
    (normalizeTokens ["l200", "1200"]).normalized_amounts = [1200] ∧
    ((normalizeTokens ["l200", "1200"]).details.filter (·.success)).length
      = 1 := by
  obtain ⟨ha, hd⟩ := normalizeTokens_eq tokens
  refine ⟨?_, ?_, ?_, ?_, ?_⟩
  · rw [ha]
    exact refAmounts_congr tokens [] [] (fun _ => Iff.rfl)
  · rw [hd]
    exact refDetails_length tokens []
  · intro i hi p hp
    have h := (refDetails_getD tokens [] i hi).1 p hp
    rw [hd]
    constructor
    · intro hnot
      refine h.2 ?_
      rintro (hc | hc)
      · exact absurd hc (List.not_mem_nil _)
      · exact hnot hc
    · intro hmem
      exact h.1 (Or.inr hmem)
  · with_unfolding_all decide
  · with_unfolding_all decide

theorem normalizeTokens_first_seen_dedup_witness :
    (normalizeTokens ["l200", "1200"]).details.getD 1 defaultDetail =
      ⟨"1200", "1200", some 1200, false, some "duplicate"⟩ :=
  ((normalizeTokens_first_seen_dedup ["l200", "1200"]).2.2.1 1 (by decide)
    ⟨1200, "1200", "1200"⟩ (by with_unfolding_all decide)).2
    (by with_unfolding_all decide)

/-! ### C8 (amended): percentage tokens fail with `invalid_format` -/

theorem parseNumeric_percent (t : String)
    (h : containsSub t.data ['%'] = true) : parseNumeric t = none := by
  unfold parseNumeric
  simp [h]

theorem refAmounts_filter_none (p : String → Bool)
    (hp : ∀ t, p t = false → parseNumeric t = none) (ts : List String) :
    ∀ seen : List ℚ, refAmounts seen (ts.filter p) = refAmounts seen ts := by
  induction ts with
  | nil => intro seen; rfl
  | cons t ts ih =>
    intro seen
    cases hpt : p t with
    | false =>
      have hn := hp t hpt
      simp [List.filter_cons, hpt, refAmounts, hn, ih]
    | true =>
      cases hq : parseNumeric t with
      | none => simp [List.filter_cons, hpt, refAmounts, hq, ih]
      | some q =>
        by_cases hs : q.value ∈ seen
        · have hsb := contains_iff_mem.mpr hs
          simp [List.filter_cons, hpt, refAmounts, hq, hs, hsb, ih]
        · have hsb : seen.contains q.value = false := by
            rw [Bool.eq_false_iff]
            exact fun hc => hs (contains_iff_mem.mp hc)
          simp [List.filter_cons, hpt, refAmounts, hq, hs, hsb, ih]

/-- C8 (amended).  A raw token containing `%` never parses
(`parseNumeric` returns `null`), so its detail entry is
`success: false, reason: 'invalid_format'` — not the spec's
`'percentage'`, whose branch is unreachable; the batch is never aborted and
the token contributes no normalized amount (removing the `%` tokens leaves
`normalized_amounts` unchanged); `normalize(["10%"])` gives
`normalized_amounts == []` and confidence `0`. -/
theorem normalizeTokens_percentage_invalid_format (tokens : List String) :
    (∀ i, i < tokens.length →
      containsSub (tokens.getD i "").data ['%'] = true →
      (normalizeTokens tokens).details.getD i defaultDetail =
        ⟨tokens.getD i "", fixOcrDigits (tokens.getD i ""), none, false,
          some "invalid_format"⟩) ∧
    (normalizeTokens tokens).normalized_amounts =
      (normalizeTokens (tokens.filter
        (fun t => !containsSub t.data ['%']))).normalized_amounts ∧
    normalizeTokens ["10%"] =
      ⟨[], 0, [⟨"10%", "10", none, false, some "invalid_format"⟩]⟩ := by
  obtain ⟨ha, hd⟩ := normalizeTokens_eq tokens
  refine ⟨?_, ?_, by with_unfolding_all decide⟩
  · intro i hi hperc
    rw [hd]
    exact (refDetails_getD tokens [] i hi).2 (parseNumeric_percent _ hperc)
  · obtain ⟨ha2, _⟩ :=
      normalizeTokens_eq (tokens.filter fun t => !containsSub t.data ['%'])
    rw [ha, ha2, refAmounts_filter_none _ ?hp tokens []]
    case hp =>
      intro t ht
      refine parseNumeric_percent t ?_
      simpa using ht

theorem normalizeTokens_percentage_invalid_format_witness :
    (normalizeTokens ["10%"]).details.getD 0 defaultDetail =
      ⟨"10%", "10", none, false, some "invalid_format"⟩ :=
  (normalizeTokens_percentage_invalid_format ["10%"]).1 0 (by decide)
    (by decide)

/-! ### C3: the correction map fires exactly next to a real digit -/

/-- The per-position correction rule of the claim: map the character at `i`
exactly when the previous or the next character of the (stripped) token is a
digit; keep digits, dots and commas; drop everything else (in particular a
mapped letter with no adjacent digit). -/
def adjacencyRule (l : List Char) (i : ℕ) : Option Char :=
  match digitCorrections (l.getD i ' '),
    (decide (0 < i) && jsDigit (l.getD (i - 1) ' ')) ||
      jsDigit (l.getD (i + 1) ' ') with
  | some d, true => some d
  | _, _ =>
    if jsDigit (l.getD i ' ') || l.getD i ' ' = '.' || l.getD i ' ' = ','
    then some (l.getD i ' ') else none

/-- `correctionStep` as an `Option` (it returns at most one character). -/
def stepOpt (prev : Option Char) (c : Char) (next : Option Char) :
    Option Char :=
  match digitCorrections c, (prev.elim false jsDigit) ||
      (next.elim false jsDigit) with
  | some d, true => some d
  | _, _ =>
    if jsDigit c || c = '.' || c = ',' then some c else none

theorem correctionStep_eq_toList (prev : Option Char) (c : Char)
    (next : Option Char) :
    correctionStep prev c next = (stepOpt prev c next).toList := by
  unfold correctionStep stepOpt
  rcases hdc : digitCorrections c with _ | d <;>
    rcases hadj : (prev.elim false jsDigit) || (next.elim false jsDigit) <;>
    simp only [hdc, hadj] <;> first | rfl | (split_ifs <;> rfl)

theorem correctionGo_positional (l : List Char) :
    ∀ prev : Option Char,
    correctionGo prev l = (List.range l.length).filterMap fun i =>
      stepOpt (if i = 0 then prev else some (l.getD (i - 1) ' '))
        (l.getD i ' ') (l.get? (i + 1)) := by
  induction l with
  | nil => intro prev; simp [correctionGo]
  | cons c rest ih =>
    intro prev
    have hfun : (fun i =>
        stepOpt (if i + 1 = 0 then prev
            else some ((c :: rest).getD (i + 1 - 1) ' '))
          ((c :: rest).getD (i + 1) ' ') ((c :: rest).get? (i + 1 + 1))) =
        (fun i =>
          stepOpt (if i = 0 then some c else some (rest.getD (i - 1) ' '))
            (rest.getD i ' ') (rest.get? (i + 1))) := by
      funext i
      cases i with
      | zero => simp [List.getD]
      | succ j => simp [List.getD]
    calc correctionGo prev (c :: rest)
        = correctionStep prev c rest.head? ++ correctionGo (some c) rest := rfl
      _ = (stepOpt prev c rest.head?).toList ++
            (List.range rest.length).filterMap (fun i =>
              stepOpt (if i = 0 then some c else some (rest.getD (i - 1) ' '))
                (rest.getD i ' ') (rest.get? (i + 1))) := by
          rw [correctionStep_eq_toList, ih (some c)]
      _ = _ := by
          rw [List.length_cons, List.range_succ_eq_map, List.filterMap_cons,
            List.filterMap_map]
          have hcomp : ((fun i => stepOpt
              (if i = 0 then prev else some ((c :: rest).getD (i - 1) ' '))
              ((c :: rest).getD i ' ') ((c :: rest).get? (i + 1)))
                ∘ Nat.succ) = (fun i =>
              stepOpt (if i = 0 then some c else some (rest.getD (i - 1) ' '))
                (rest.getD i ' ') (rest.get? (i + 1))) := by
            funext i
            cases i with
            | zero => simp [List.getD]
            | succ j => simp [List.getD]
          have h0 : stepOpt
              (if 0 = 0 then prev else some ((c :: rest).getD (0 - 1) ' '))
              ((c :: rest).getD 0 ' ') ((c :: rest).get? (0 + 1)) =
              stepOpt prev c rest.head? := by
            cases rest <;> simp [List.getD]
          rw [hcomp, h0]
          cases hstep : stepOpt prev c rest.head? <;>
            simp [Option.toList]

theorem stepOpt_positional (l : List Char) (i : ℕ) :
    stepOpt (if i = 0 then none else some (l.getD (i - 1) ' '))
      (l.getD i ' ') (l.get? (i + 1)) = adjacencyRule l i := by
  have hnext : (l.get? (i + 1)).elim false jsDigit =
      jsDigit (l.getD (i + 1) ' ') := by
    show (l.get? (i + 1)).elim false jsDigit =
      jsDigit ((l.get? (i + 1)).getD ' ')
    cases hg : l.get? (i + 1) <;> simp [hg] <;> decide
  have hprev : (if i = 0 then (none : Option Char)
      else some (l.getD (i - 1) ' ')).elim false jsDigit =
      ((decide (0 < i) && jsDigit (l.getD (i - 1) ' '))) := by
    cases i <;> simp
  unfold stepOpt adjacencyRule
  rw [hnext, hprev]

/-- C3.  `fixOcrDigits` is: strip, then apply the letter→digit map to each
character exactly when the previous or next character of the stripped token
is a digit (dropping mapped letters that are not, keeping digits, `.`,
`,`), then remove commas, keep `[0-9.]`, and collapse extra dots;
`fixOcrDigits("l2O0") == "1200"` while `"Hello"` never parses to a
number. -/
theorem fixOcrDigits_adjacent_correction :
    (∀ token : String,
      fixOcrDigits token = String.mk (collapseDots
        ((((List.range (stripSymbolsWs (jsTrim token.data)).length).filterMap
            (adjacencyRule (stripSymbolsWs (jsTrim token.data)))).filter
          (fun c => !(c = ','))).filter (fun c => jsDigit c || c = '.')))) ∧
    fixOcrDigits "l2O0" = "1200" ∧
    parseNumeric "Hello" = none := by
  refine ⟨?_, by decide, by decide⟩
  intro token
  show String.mk (collapseDots ((((correctionPass
      (stripSymbolsWs (jsTrim token.data))).filter
        (fun c => !(c = ','))).filter (fun c => jsDigit c || c = '.')))) = _
  have : correctionPass (stripSymbolsWs (jsTrim token.data)) =
      (List.range (stripSymbolsWs (jsTrim token.data)).length).filterMap
        (adjacencyRule (stripSymbolsWs (jsTrim token.data))) := by
    rw [correctionPass, correctionGo_positional]
    exact List.filterMap_congr fun i _ => stepOpt_positional _ i
  rw [this]

/-! ### C6: classification output invariants -/

/-- Loop invariant of `classifyAmounts`: every recorded value is one of the
normalized amounts, every recorded `(type, value)` pair is registered in
`classifiedPairs`, and no two recorded amounts share a `(type, value)`
pair. -/
def PairInv (nas : List ℚ) (st : ClassifyState) : Prop :=
  (∀ a ∈ st.amounts, a.value ∈ nas) ∧
  (∀ a ∈ st.amounts, (a.type, a.value) ∈ st.pairs) ∧
  st.amounts.Pairwise (fun x y => ¬(x.type = y.type ∧ x.value = y.value))

theorem classifyValueLoop_inv (nas : List ℚ) (snippet : List Char)
    (vs : List ℚ) : ∀ st : ClassifyState, PairInv nas st →
    PairInv nas (classifyValueLoop nas snippet vs st) := by
  induction vs with
  | nil => intro st h; exact h
  | cons v vs ih =>
    intro st h
    show PairInv nas (classifyValueLoop nas snippet (v :: vs) st)
    rw [classifyValueLoop]
    split
    · exact ih st h
    · next m hf =>
      split
      · exact ih st h
      · next cls hm =>
        split_ifs with hconf hcont
        · exact ih st h
        · exact ih st h
        · refine ih _ ⟨?_, ?_, ?_⟩
          · intro a ha
            rcases List.mem_append.mp ha with ha | ha
            · exact h.1 a ha
            · have ha' : a = ⟨cls.type, m,
                  "text: '" ++ String.mk (truncateSnippet snippet) ++ "'",
                  cls.confidence⟩ := by simpa using ha
              subst ha'
              exact List.mem_of_find?_eq_some hf
          · intro a ha
            rcases List.mem_append.mp ha with ha | ha
            · exact List.mem_append.mpr (Or.inl (h.2.1 a ha))
            · have ha' : a = ⟨cls.type, m,
                  "text: '" ++ String.mk (truncateSnippet snippet) ++ "'",
                  cls.confidence⟩ := by simpa using ha
              subst ha'
              exact List.mem_append.mpr (Or.inr (by simp))
          · rw [List.pairwise_append]
            refine ⟨h.2.2, by simp, ?_⟩
            intro a ha b hb
            have hb' : b = ⟨cls.type, m,
                "text: '" ++ String.mk (truncateSnippet snippet) ++ "'",
                cls.confidence⟩ := by simpa using hb
            subst hb'
            rintro ⟨hty, hval⟩
            apply hcont
            refine contains_iff_mem.mpr ?_
            have := h.2.1 a ha
            simpa [hty, hval] using this

theorem classifySnippetLoop_inv (nas : List ℚ) (snippets : List (List Char)) :
    ∀ st : ClassifyState, PairInv nas st →
    PairInv nas (classifySnippetLoop nas snippets st) := by
  induction snippets with
  | nil => intro st h; exact h
  | cons s ss ih =>
    intro st h
    exact ih _ (classifyValueLoop_inv nas s (extractAmountsFromSnippet s) st h)

/-- C6.  Every classified amount's value is within absolute tolerance 0.01
of some element of the input `normalizedAmounts` (in fact it *is* an
element), and the output never contains two entries with the same
`(type, value)` pair. -/
theorem classifyAmounts_value_provenance (text : String) (nas : List ℚ) :
    (∀ a ∈ (classifyAmounts text nas).amounts,
      ∃ v ∈ nas, |a.value - v| ≤ 1/100) ∧
    (classifyAmounts text nas).amounts.Pairwise
      (fun x y => ¬(x.type = y.type ∧ x.value = y.value)) := by
  unfold classifyAmounts
  split_ifs with h
  · simp
  · have hinv := classifySnippetLoop_inv nas (splitSegments text.data)
      ⟨[], [], []⟩ ⟨by simp, by simp, by simp⟩
    constructor
    · intro a ha
      obtain ⟨a0, ha0, rfl⟩ := List.mem_map.mp ha
      exact ⟨a0.value, hinv.1 a0 ha0, by simp⟩
    · refine List.pairwise_map.mpr ?_
      refine hinv.2.2.imp ?_
      intro a b hab
      exact hab

theorem classifyAmounts_value_provenance_witness :
    ∃ v ∈ ([100] : List ℚ), |(100 : ℚ) - v| ≤ 1/100 :=
  (classifyAmounts_value_provenance "Total: 100" [100]).1
    ⟨"total_bill", 100, "text: 'Total: 100'"⟩ (by with_unfolding_all decide)

/-! ### C7: currency detection picks the first pattern with the highest
count -/

def dummyCM : CurrencyMatch := ⟨"", 0⟩

/-- The earliest maximum of a match list (what the head of a stable
descending sort is). -/
def pickFirstMax : List CurrencyMatch → Option CurrencyMatch
  | [] => none
  | x :: xs =>
    match pickFirstMax xs with
    | none => some x
    | some m => if x.count < m.count then some m else some x

theorem sortDesc_head (l : List CurrencyMatch) :
    (sortDesc l).head? = pickFirstMax l := by
  induction l with
  | nil => rfl
  | cons x xs ih =>
    cases hs : sortDesc xs with
    | nil =>
      have hp : pickFirstMax xs = none := by rw [← ih, hs]; rfl
      simp [sortDesc, hs, insertDesc, pickFirstMax, hp]
    | cons y ys =>
      have hp : pickFirstMax xs = some y := by rw [← ih, hs]; rfl
      simp only [sortDesc, hs, insertDesc, pickFirstMax, hp]
      by_cases hc : y.count ≤ x.count
      · rw [if_pos hc]
        simp [Nat.not_lt.mpr hc]
      · rw [if_neg hc]
        simp [Nat.lt_of_not_le hc]

theorem pickFirstMax_mem (l : List CurrencyMatch) (m : CurrencyMatch)
    (h : pickFirstMax l = some m) : m ∈ l := by
  induction l generalizing m with
  | nil => simp [pickFirstMax] at h
  | cons x xs ih =>
    rw [pickFirstMax] at h
    cases hp : pickFirstMax xs with
    | none =>
      rw [hp] at h
      have h' : some x = some m := h
      injection h' with he
      exact he ▸ List.mem_cons_self x xs
    | some m' =>
      rw [hp] at h
      have h' : (if x.count < m'.count then some m' else some x) = some m := h
      by_cases hc : x.count < m'.count
      · rw [if_pos hc] at h'
        injection h' with he
        exact List.mem_cons_of_mem x (he ▸ ih m' hp)
      · rw [if_neg hc] at h'
        injection h' with he
        exact he ▸ List.mem_cons_self x xs

theorem pickFirstMax_spec (l : List CurrencyMatch) :
    ∀ i : ℕ, i < l.length →
    (∀ j, j < i → (l.getD j dummyCM).count < (l.getD i dummyCM).count) →
    (∀ j, j < l.length → (l.getD j dummyCM).count ≤ (l.getD i dummyCM).count) →
    pickFirstMax l = some (l.getD i dummyCM) := by
  induction l with
  | nil => intro i hi; exact absurd hi (by simp)
  | cons x xs ih =>
    intro i hi hlt hle
    cases i with
    | zero =>
      cases hp : pickFirstMax xs with
      | none => simp [pickFirstMax, hp, List.getD]
      | some m =>
        have hm : m ∈ xs := pickFirstMax_mem xs m hp
        obtain ⟨k, hk, hkm⟩ := List.mem_iff_getElem.mp hm
        have hcount := hle (k + 1) (by simpa using hk)
        have hxsk : xs.getD k dummyCM = m := by
          rw [List.getD_eq_getElem xs dummyCM hk]
          exact hkm
        have hkk : (x :: xs).getD (k + 1) dummyCM = m := by
          rw [List.getD_cons_succ]
          exact hxsk
        rw [hkk] at hcount
        have hxx : (x :: xs).getD 0 dummyCM = x := rfl
        rw [hxx] at hcount
        simp [pickFirstMax, hp, List.getD, Nat.not_lt.mpr hcount]
    | succ i =>
      have hi' : i < xs.length := by simpa using hi
      have htarget : (x :: xs).getD (i + 1) dummyCM = xs.getD i dummyCM := by
        simp [List.getD_cons_succ]
      rw [htarget] at hlt hle ⊢
      have hpx := ih i hi'
        (fun j hj => by
          have := hlt (j + 1) (by omega)
          simpa [List.getD_cons_succ] using this)
        (fun j hj => by
          have := hle (j + 1) (by simpa using hj)
          simpa [List.getD_cons_succ] using this)
      have hx := hlt 0 (Nat.succ_pos i)
      have hx0 : (x :: xs).getD 0 dummyCM = x := rfl
      rw [hx0] at hx
      have hstep : pickFirstMax (x :: xs) =
          if x.count < (xs.getD i dummyCM).count then some (xs.getD i dummyCM)
          else some x := by
        rw [pickFirstMax, hpx]
      rw [hstep, if_pos hx]

theorem buildMatches_nil (hints : List CurrencyHint) (lt : List Char)
    (h : ∀ hint ∈ hints, hintCount hint lt = 0) :
    buildCurrencyMatches hints lt = [] := by
  induction hints with
  | nil => rfl
  | cons hint hints ih =>
    have h0 := h hint (List.mem_cons_self _ _)
    simp only [buildCurrencyMatches, List.filterMap_cons, h0]
    exact ih fun x hx => h x (List.mem_cons_of_mem _ hx)

theorem mem_buildMatches (hints : List CurrencyHint) (lt : List Char)
    (m : CurrencyMatch) (h : m ∈ buildCurrencyMatches hints lt) :
    ∃ j, j < hints.length ∧
      m = ⟨(hints.getD j dummyHint).code,
        hintCount (hints.getD j dummyHint) lt⟩ := by
  induction hints with
  | nil => simp [buildCurrencyMatches] at h
  | cons hint hints ih =>
    rw [buildCurrencyMatches, List.filterMap_cons] at h
    by_cases h0 : hintCount hint lt > 0
    · rw [if_pos h0] at h
      rcases List.mem_cons.mp h with h | h
      · exact ⟨0, by simp, by simpa using h⟩
      · obtain ⟨j, hj, hm⟩ := ih h
        exact ⟨j + 1, by simpa using hj, by simpa [List.getD_cons_succ] using hm⟩
    · rw [if_neg h0] at h
      obtain ⟨j, hj, hm⟩ := ih h
      exact ⟨j + 1, by simpa using hj, by simpa [List.getD_cons_succ] using hm⟩

theorem buildMatches_cons (hint : CurrencyHint) (hints : List CurrencyHint)
    (lt : List Char) :
    buildCurrencyMatches (hint :: hints) lt =
      if hintCount hint lt > 0 then
        ⟨hint.code, hintCount hint lt⟩ :: buildCurrencyMatches hints lt
      else buildCurrencyMatches hints lt := by
  by_cases h0 : hintCount hint lt > 0 <;>
    simp [buildCurrencyMatches, List.filterMap_cons, h0]

theorem buildMatches_pickFirst (hints : List CurrencyHint) (lt : List Char) :
    ∀ i : ℕ, i < hints.length →
    0 < hintCount (hints.getD i dummyHint) lt →
    (∀ j, j < i → hintCount (hints.getD j dummyHint) lt <
      hintCount (hints.getD i dummyHint) lt) →
    (∀ j, j < hints.length → hintCount (hints.getD j dummyHint) lt ≤
      hintCount (hints.getD i dummyHint) lt) →
    pickFirstMax (buildCurrencyMatches hints lt) =
      some ⟨(hints.getD i dummyHint).code,
        hintCount (hints.getD i dummyHint) lt⟩ := by
  induction hints with
  | nil => intro i hi; exact absurd hi (by simp)
  | cons hint hints ih =>
    intro i hi hpos hlt hle
    cases i with
    | zero =>
      have h0 : (hint :: hints).getD 0 dummyHint = hint := rfl
      rw [h0] at hpos hlt hle ⊢
      rw [buildMatches_cons, if_pos hpos, pickFirstMax]
      cases hp : pickFirstMax (buildCurrencyMatches hints lt) with
      | none => rfl
      | some m =>
        obtain ⟨j, hj, hm⟩ := mem_buildMatches hints lt m
          (pickFirstMax_mem _ _ hp)
        have hj' := hle (j + 1) (by simpa using hj)
        rw [show (hint :: hints).getD (j + 1) dummyHint =
          hints.getD j dummyHint from by rw [List.getD_cons_succ]] at hj'
        have hmc : m.count ≤ hintCount hint lt := by rw [hm]; exact hj'
        show (if hintCount hint lt < m.count then some m
          else some (⟨hint.code, hintCount hint lt⟩ : CurrencyMatch)) =
          some (⟨hint.code, hintCount hint lt⟩ : CurrencyMatch)
        rw [if_neg (Nat.not_lt.mpr hmc)]
    | succ i =>
      have hi' : i < hints.length := by simpa using hi
      have htarget : (hint :: hints).getD (i + 1) dummyHint =
          hints.getD i dummyHint := by rw [List.getD_cons_succ]
      rw [htarget] at hpos hlt hle ⊢
      have hpx := ih i hi' hpos
        (fun j hj => by
          have := hlt (j + 1) (by omega)
          simpa [List.getD_cons_succ] using this)
        (fun j hj => by
          have := hle (j + 1) (by simpa using hj)
          simpa [List.getD_cons_succ] using this)
      have hx := hlt 0 (Nat.succ_pos i)
      rw [show (hint :: hints).getD 0 dummyHint = hint from rfl] at hx
      rw [buildMatches_cons]
      by_cases h0 : hintCount hint lt > 0
      · rw [if_pos h0, pickFirstMax, hpx]
        show (if hintCount hint lt <
            hintCount (hints.getD i dummyHint) lt then
            some (⟨(hints.getD i dummyHint).code,
              hintCount (hints.getD i dummyHint) lt⟩ : CurrencyMatch)
          else some (⟨hint.code, hintCount hint lt⟩ : CurrencyMatch)) = _
        rw [if_pos hx]
      · rw [if_neg h0]
        exact hpx

/-- C7.  `detectCurrency` counts each of the four currency patterns over the
whole (lowercased) text in the fixed scan order INR, USD, EUR, GBP, returns
the code of the pattern with the strictly-first highest positive count
(stable sort: ties go to the earlier pattern), returns `"USD"` when no
pattern matches, and is deterministic. -/
theorem detectCurrency_priority (text : List Char) :
    ((∀ h ∈ currencyHints, hintCount h (text.map jsToLower) = 0) →
      detectCurrency text = "USD") ∧
    (∀ i, i < currencyHints.length →
      0 < hintCount (currencyHints.getD i dummyHint) (text.map jsToLower) →
      (∀ j, j < i →
        hintCount (currencyHints.getD j dummyHint) (text.map jsToLower) <
        hintCount (currencyHints.getD i dummyHint) (text.map jsToLower)) →
      (∀ j, j < currencyHints.length →
        hintCount (currencyHints.getD j dummyHint) (text.map jsToLower) ≤
        hintCount (currencyHints.getD i dummyHint) (text.map jsToLower)) →
      detectCurrency text = (currencyHints.getD i dummyHint).code) ∧
    detectCurrency text = detectCurrency text := by
  refine ⟨?_, ?_, rfl⟩
  · intro hall
    rw [detectCurrency, buildMatches_nil currencyHints _ hall]
    rfl
  · intro i hi hpos hlt hle
    rw [detectCurrency, sortDesc_head,
      buildMatches_pickFirst currencyHints _ i hi hpos hlt hle]

theorem detectCurrency_priority_witness :
    detectCurrency "Total: $100 | Paid: €80 | Due: £20".data = "USD" :=
  (detectCurrency_priority _).2.1 1 (by decide) (by decide)
    (by
      intro j hj
      have hj0 : j = 0 := by omega
      subst hj0
      decide)
    (by
      intro j hj
      have hj4 : j = 0 ∨ j = 1 ∨ j = 2 ∨ j = 3 := by
        have : j < 4 := by simpa [currencyHints] using hj
        omega
      rcases hj4 with rfl | rfl | rfl | rfl <;> decide)

/-! ### C5: rule scoring and selection in `matchSnippetToType` -/

theorem getD_mem {α : Type} (l : List α) (d : α) (n : ℕ) (h : n < l.length) :
    l.getD n d ∈ l := by
  rw [List.getD_eq_getElem l d h]
  exact List.getElem_mem h

theorem scanPatterns_eq (priority : ℕ) (ps : List RulePat) (ls : List Char) :
    scanPatterns priority ps ls =
      (if ps.any (fun p => patTest p ls) then priority * 2 else 0,
       ps.any (fun p => patTest p ls)) := by
  induction ps with
  | nil => rfl
  | cons p ps ih =>
    by_cases hp : patTest p ls
    · simp [scanPatterns, hp]
    · simp [scanPatterns, hp, ih]

theorem scanKeywords_eq (priority : ℕ) (kws : List String) (ls : List Char) :
    scanKeywords priority kws ls =
      (priority * kws.countP (fun kw => containsSub ls (kw.data.map jsToLower)),
       kws.filter (fun kw => containsSub ls (kw.data.map jsToLower))) := by
  induction kws with
  | nil => simp [scanKeywords]
  | cons kw kws ih =>
    by_cases hk : containsSub ls (kw.data.map jsToLower) = true
    · simp only [scanKeywords, hk, if_true, ih, List.countP_cons,
        List.filter_cons]
      have harith : ∀ n : ℕ, priority + priority * n = priority * (n + 1) :=
        fun n => by ring
      rw [harith, Prod.mk.injEq]
      exact ⟨rfl, rfl⟩
    · simp [scanKeywords, hk, ih, List.countP_cons, List.filter_cons]

/-- The match record `matchSnippetToType` builds for a winning rule. -/
def mkRuleMatch (rule : ClassRule) (ls : List Char) : RuleMatch :=
  ⟨rule.type,
   min (95/100) (1/2 + ((ruleScore rule ls : ℕ) : ℚ)/30),
   (scanKeywords rule.priority rule.keywords ls).2,
   (scanPatterns rule.priority rule.patterns ls).2,
   ruleScore rule ls⟩

theorem msttLoop_all_le (ls : List Char) (rules : List ClassRule) :
    ∀ (best : Option RuleMatch) (highest : ℕ),
    (∀ r ∈ rules, ruleScore r ls ≤ highest) →
    msttLoop ls rules best highest = best := by
  induction rules with
  | nil => intro best highest _; rfl
  | cons r rs ih =>
    intro best highest hall
    have hle := hall r (List.mem_cons_self r rs)
    simp only [ruleScore] at hle
    simp only [msttLoop]
    rw [if_neg (Nat.not_lt.mpr hle)]
    exact ih best highest fun r' hr' => hall r' (List.mem_cons_of_mem _ hr')

theorem msttLoop_argmax (ls : List Char) (rules : List ClassRule) :
    ∀ (best : Option RuleMatch) (highest : ℕ),
    (∃ r ∈ rules, highest < ruleScore r ls) →
    ∃ i, i < rules.length ∧
      msttLoop ls rules best highest =
        some (mkRuleMatch (rules.getD i dummyRule) ls) ∧
      highest < ruleScore (rules.getD i dummyRule) ls ∧
      (∀ j, j < i → ruleScore (rules.getD j dummyRule) ls <
        ruleScore (rules.getD i dummyRule) ls) ∧
      (∀ j, j < rules.length → ruleScore (rules.getD j dummyRule) ls ≤
        ruleScore (rules.getD i dummyRule) ls) := by
  induction rules with
  | nil =>
    rintro best highest ⟨r, hr, _⟩
    exact absurd hr (List.not_mem_nil r)
  | cons r rs ih =>
    intro best highest hex
    by_cases hgt : highest < ruleScore r ls
    · have hgt' := hgt
      simp only [ruleScore] at hgt'
      have hstep : msttLoop ls (r :: rs) best highest =
          msttLoop ls rs (some (mkRuleMatch r ls)) (ruleScore r ls) := by
        simp only [msttLoop, mkRuleMatch, ruleScore]
        rw [if_pos hgt']
      by_cases hall : ∀ r' ∈ rs, ruleScore r' ls ≤ ruleScore r ls
      · refine ⟨0, by simp, ?_, by simpa using hgt,
          fun j hj => absurd hj (Nat.not_lt_zero j), ?_⟩
        · rw [hstep, msttLoop_all_le ls rs _ _ hall, List.getD_cons_zero]
        · intro j hj
          cases j with
          | zero => exact Nat.le_refl _
          | succ j =>
            have hj' : j < rs.length := by simpa using hj
            rw [List.getD_cons_succ, List.getD_cons_zero]
            exact hall (rs.getD j dummyRule) (getD_mem rs dummyRule j hj')
      · push_neg at hall
        obtain ⟨r', hr', hgt2⟩ := hall
        obtain ⟨i, hi, heq, hhigh, hlt, hle⟩ :=
          ih (some (mkRuleMatch r ls)) (ruleScore r ls) ⟨r', hr', hgt2⟩
        refine ⟨i + 1, by simpa using hi, ?_, ?_, ?_, ?_⟩
        · rw [hstep, heq, List.getD_cons_succ]
        · rw [List.getD_cons_succ]
          exact lt_trans hgt hhigh
        · intro j hj
          cases j with
          | zero =>
            rw [List.getD_cons_succ]
            exact hhigh
          | succ j =>
            rw [List.getD_cons_succ, List.getD_cons_succ]
            exact hlt j (by omega)
        · intro j hj
          cases j with
          | zero =>
            rw [List.getD_cons_succ]
            exact Nat.le_of_lt hhigh
          | succ j =>
            rw [List.getD_cons_succ, List.getD_cons_succ]
            exact hle j (by simpa using hj)
    · have hgt' := hgt
      simp only [ruleScore] at hgt'
      have hstep : msttLoop ls (r :: rs) best highest =
          msttLoop ls rs best highest := by
        simp only [msttLoop]
        rw [if_neg hgt']
      have hex' : ∃ r' ∈ rs, highest < ruleScore r' ls := by
        obtain ⟨r', hr', hgt2⟩ := hex
        rcases List.mem_cons.mp hr' with rfl | hmem
        · exact absurd hgt2 hgt
        · exact ⟨r', hmem, hgt2⟩
      obtain ⟨i, hi, heq, hhigh, hlt, hle⟩ := ih best highest hex'
      refine ⟨i + 1, by simpa using hi, ?_, ?_, ?_, ?_⟩
      · rw [hstep, heq, List.getD_cons_succ]
      · rw [List.getD_cons_succ]
        exact hhigh
      · intro j hj
        cases j with
        | zero =>
          rw [List.getD_cons_succ]
          exact Nat.lt_of_le_of_lt (Nat.not_lt.mp hgt) hhigh
        | succ j =>
          rw [List.getD_cons_succ, List.getD_cons_succ]
          exact hlt j (by omega)
      · intro j hj
        cases j with
        | zero =>
          rw [List.getD_cons_succ]
          exact Nat.le_of_lt (Nat.lt_of_le_of_lt (Nat.not_lt.mp hgt) hhigh)
        | succ j =>
          rw [List.getD_cons_succ, List.getD_cons_succ]
          exact hle j (by simpa using hj)

/-- C5.  A rule's score is `priority × 2` if any of its patterns matches
(counted once) plus `priority` per matching keyword; `matchSnippetToType`
returns no match exactly when every rule scores zero, and otherwise selects
the earliest rule with the strictly highest score (strict-improvement
comparison), with confidence `min(0.95, 0.5 + score/30)`. -/
theorem matchSnippetToType_selection (snippet : String) :
    (∀ rule ∈ classificationRules,
      ruleScore rule (snippet.data.map jsToLower) =
        (if rule.patterns.any
            (fun p => patTest p (snippet.data.map jsToLower))
         then rule.priority * 2 else 0) +
        rule.priority * (rule.keywords.countP
          (fun kw => containsSub (snippet.data.map jsToLower)
            (kw.data.map jsToLower)))) ∧
    (matchSnippetToType snippet = none ↔
      ∀ rule ∈ classificationRules,
        ruleScore rule (snippet.data.map jsToLower) = 0) ∧
    (∀ m, matchSnippetToType snippet = some m →
      ∃ i, i < classificationRules.length ∧
        m.type = (classificationRules.getD i dummyRule).type ∧
        m.score = ruleScore (classificationRules.getD i dummyRule)
          (snippet.data.map jsToLower) ∧
        m.confidence = min (95/100) (1/2 + ((m.score : ℕ) : ℚ)/30) ∧
        0 < m.score ∧
        (∀ j, j < i → ruleScore (classificationRules.getD j dummyRule)
          (snippet.data.map jsToLower) < m.score) ∧
        (∀ j, j < classificationRules.length →
          ruleScore (classificationRules.getD j dummyRule)
            (snippet.data.map jsToLower) ≤ m.score)) := by
  refine ⟨?_, ⟨?_, ?_⟩, ?_⟩
  · intro rule _
    rw [ruleScore, scanPatterns_eq, scanKeywords_eq]
  · intro hnone rule hrule
    by_contra hne
    have hpos : 0 < ruleScore rule (snippet.data.map jsToLower) :=
      Nat.pos_of_ne_zero hne
    obtain ⟨i, _, heq, _⟩ := msttLoop_argmax (snippet.data.map jsToLower)
      classificationRules none 0 ⟨rule, hrule, hpos⟩
    rw [matchSnippetToType] at hnone
    rw [hnone] at heq
    exact Option.noConfusion heq
  · intro hall
    rw [matchSnippetToType]
    exact msttLoop_all_le _ _ _ _ fun r hr => Nat.le_of_eq (hall r hr)
  · intro m hm
    by_cases hall : ∀ rule ∈ classificationRules,
        ruleScore rule (snippet.data.map jsToLower) = 0
    · rw [matchSnippetToType,
        msttLoop_all_le _ _ _ _ fun r hr => Nat.le_of_eq (hall r hr)] at hm
      exact Option.noConfusion hm
    · push_neg at hall
      obtain ⟨rule, hrule, hne⟩ := hall
      obtain ⟨i, hi, heq, hpos, hlt, hle⟩ :=
        msttLoop_argmax (snippet.data.map jsToLower) classificationRules
          none 0 ⟨rule, hrule, Nat.pos_of_ne_zero hne⟩
      rw [matchSnippetToType, heq] at hm
      have hm' : m = mkRuleMatch
          (classificationRules.getD i dummyRule)
          (snippet.data.map jsToLower) := by
        injection hm with h
        exact h.symm
      subst hm'
      exact ⟨i, hi, rfl, rfl, rfl, hpos, hlt, hle⟩

theorem matchSnippetToType_selection_witness :
    ∃ i, i < classificationRules.length ∧
      (⟨"total_bill", 19/20, ["total"], true, 30⟩ : RuleMatch).type =
        (classificationRules.getD i dummyRule).type ∧
      (⟨"total_bill", 19/20, ["total"], true, 30⟩ : RuleMatch).score =
        ruleScore (classificationRules.getD i dummyRule)
          ("Total: 5000".data.map jsToLower) ∧
      (⟨"total_bill", 19/20, ["total"], true, 30⟩ : RuleMatch).confidence =
        min (95/100) (1/2 +
          (((⟨"total_bill", 19/20, ["total"], true, 30⟩ :
            RuleMatch).score : ℕ) : ℚ)/30) ∧
      0 < (⟨"total_bill", 19/20, ["total"], true, 30⟩ : RuleMatch).score ∧
      (∀ j, j < i → ruleScore (classificationRules.getD j dummyRule)
        ("Total: 5000".data.map jsToLower) <
        (⟨"total_bill", 19/20, ["total"], true, 30⟩ : RuleMatch).score) ∧
      (∀ j, j < classificationRules.length →
        ruleScore (classificationRules.getD j dummyRule)
          ("Total: 5000".data.map jsToLower) ≤
        (⟨"total_bill", 19/20, ["total"], true, 30⟩ : RuleMatch).score) :=
  (matchSnippetToType_selection "Total: 5000").2.2
    ⟨"total_bill", 19/20, ["total"], true, 30⟩
    (by with_unfolding_all decide)

end AmountDetection
